import Mathlib

/-!
# The cache package of celeritas: `RedisCache` and `BadgerCache`

A shallow embedding of `cache/cache.go` and `cache/badger-cache.go`, followed by
`Validation` of `validator.go` and `InitSession` of `session/session.go`.

* The gob codec, the redis server and the badger database are libraries outside the
  repository.  The codec is a parameter (`Gob`); the two stores are explicit state
  machines (`Redis`, `Badger`) whose commands follow the documented behaviour of the
  server and of the database.
* A Go result `(x, err)` with `err != nil` is `Except.error err`; a lone `error` result
  is `Option Err` with `none` for `nil`.
* Every store carries a schedule of faults, so that a command or a transaction can fail,
  and the redis pool counts the connections handed out.
-/

namespace Celeritas

/-- Byte strings (`[]byte`, or a Go `string` holding bytes), one number per byte. -/
abbrev Bytes := List Nat

/-- The error values that reach a caller of the cache package. -/
inductive Err
  | notFound
  | conn
  | server (text : String)
  | encodeErr
  | decodeErr
  | msg (text : String)
  deriving DecidableEq, Repr

deriving instance DecidableEq for Except

/-- `Entry` is `map[string]interface{}`: bindings from keys to values, `none` standing
for the nil interface value. -/
abbrev Entry (V : Type) := List (String × Option V)

/-- Map indexing `m[key]`: the zero value (nil) when the key is missing. -/
def Entry.index {V : Type} (m : Entry V) (key : String) : Option V :=
  match m.lookup key with
  | some v => v
  | none => none

/-- The gob encoder and decoder for `Entry` values (package `encoding/gob`). -/
structure Gob (V : Type) where
  enc : Entry V → Option Bytes
  dec : Bytes → Option (Entry V)

/-- `encode` of cache.go: serializes item. -/
def encode {V : Type} (g : Gob V) (item : Entry V) : Except Err Bytes :=
  match g.enc item with
  | none => .error .encodeErr
  | some b => .ok b

/-- `decode` of cache.go: unserializes item. -/
def decode {V : Type} (g : Gob V) (str : Bytes) : Except Err (Entry V) :=
  match g.dec str with
  | none => .error .decodeErr
  | some item => .ok item

/-- The storage key `fmt.Sprintf("%s:%s", prefix, str)`. -/
def storageKey (pfx str : String) : String := pfx ++ ":" ++ str

/-! ## Glob matching of the redis server (`stringmatchlen` of util.c) -/

/-- The body of a bracket class, after `[` and an optional `^`: whether `c` is in the
class so far, and the pattern that follows the closing bracket. -/
def classBody (c : Char) : List Char → Bool → Bool × List Char
  | [], m => (m, [])
  | [x], m => if x = ']' then (m, []) else (m || x == c, [])
  | [x, y], m =>
    if x = '\\' then (m || y == c, [])
    else if x = ']' then (m, [y])
    else classBody c [y] (m || x == c)
  | x :: y :: hi :: rest, m =>
    if x = '\\' then classBody c (hi :: rest) (m || y == c)
    else if x = ']' then (m, y :: hi :: rest)
    else if y = '-' then
      let lo := min x.toNat hi.toNat
      let up := max x.toNat hi.toNat
      classBody c rest (m || (decide (lo ≤ c.toNat) && decide (c.toNat ≤ up)))
    else classBody c (y :: hi :: rest) (m || x == c)

/-- One call of `stringmatchlen` (case sensitive), with `fuel` bounding the calls. -/
def matchFuel : Nat → List Char → List Char → Bool
  | 0, _, _ => false
  | fuel + 1, pattern, string =>
    match pattern, string with
    | [], s => s.isEmpty
    | _ :: _, [] => false
    | c :: p, d :: s =>
      let next := fun (p2 : List Char) (s2 : List Char) =>
        if s2.isEmpty then (p2.dropWhile (· == '*')).isEmpty else matchFuel fuel p2 s2
      if c = '*' then
        let rest := p.dropWhile (· == '*')
        if rest.isEmpty then true
        else (d :: s).tails.dropLast.any (fun t => matchFuel fuel rest t)
      else if c = '?' then next p s
      else if c = '[' then
        let neg := p.head? == some '^'
        let r := classBody d (if neg then p.tail else p) false
        if (if neg then !r.1 else r.1) then next r.2 s else false
      else if c = '\\' then
        match p with
        | e :: p2 => if e = d then next p2 s else false
        | [] => if c = d then next p s else false
      else if c = d then next p s else false

/-- `stringmatchlen(pattern, string, nocase = 0)`. -/
def stringmatch (pattern string : String) : Bool :=
  matchFuel (pattern.length + string.length + 1) pattern.data string.data

/-- The characters with a meaning of their own in a glob pattern. -/
def isMeta (c : Char) : Bool := c == '*' || c == '?' || c == '[' || c == '\\'

/-- The string holds no glob metacharacter. -/
def globFree (str : String) : Bool := str.data.all (fun c => !isMeta c)

/-! ## The redis server and the connection pool -/

/-- A value of the redis keyspace with its expiry, an absolute time in milliseconds. -/
structure RItem where
  value : Bytes
  expireAt : Option Nat
  deriving DecidableEq, Repr

/-- The redis server as seen through the pool. -/
structure Redis where
  /-- the keyspace -/
  data : List (String × RItem)
  /-- server clock, milliseconds -/
  now : Nat
  /-- whether each of the coming commands fails on the wire -/
  faults : List Bool
  /-- connections borrowed from the pool and not yet closed -/
  active : Nat
  /-- connections handed out so far -/
  borrows : Nat
  deriving DecidableEq, Repr

namespace Redis

/-- A key with an expiry is gone once the clock has passed it (`keyIsExpired`). -/
def liveAt (now : Nat) (e : String × RItem) : Bool :=
  match e.2.expireAt with
  | none => true
  | some t => decide (now ≤ t)

/-- The live item under a storage key, for a clock and a keyspace. -/
def lookupIn (now : Nat) (data : List (String × RItem)) (key : String) : Option RItem :=
  ((data.filter (liveAt now)).find? (fun e => e.1 == key)).map (·.2)

/-- The entries a client can observe. -/
def live (s : Redis) : List (String × RItem) := s.data.filter (liveAt s.now)

/-- The live item under a storage key. -/
def lookup (s : Redis) (key : String) : Option RItem := lookupIn s.now s.data key

/-- Time passes: `ms` milliseconds. -/
def tick (s : Redis) (ms : Nat) : Redis := { s with now := s.now + ms }

/-- `pool.Get()`. -/
def borrow (s : Redis) : Redis := { s with active := s.active + 1, borrows := s.borrows + 1 }

/-- `conn.Close()`. -/
def release (s : Redis) : Redis := { s with active := s.active - 1 }

/-- One round trip on a connection: whether it fails, and the schedule that is left. -/
def roundTrip (s : Redis) : Bool × Redis :=
  match s.faults with
  | [] => (false, s)
  | f :: fs => (f, { s with faults := fs })

/-- `redis.Bool(conn.Do("EXISTS", key))`. -/
def doExists (s : Redis) (key : String) : Except Err Bool × Redis :=
  let (failed, s) := s.roundTrip
  if failed then (.error .conn, s) else (.ok (s.lookup key).isSome, s)

/-- `redis.Bytes(conn.Do("GET", key))`: a nil reply is `redis.ErrNil`. -/
def doGet (s : Redis) (key : String) : Except Err Bytes × Redis :=
  let (failed, s) := s.roundTrip
  if failed then (.error .conn, s)
  else
    match s.lookup key with
    | none => (.error .notFound, s)
    | some it => (.ok it.value, s)

/-- The keyspace with `key` bound to `it`. -/
def put (s : Redis) (key : String) (it : RItem) : Redis :=
  { s with data := s.data.filter (fun e => e.1 != key) ++ [(key, it)] }

/-- `conn.Do("SET", key, value)`: stores the value and clears any expiry. -/
def doSet (s : Redis) (key : String) (value : Bytes) : Except Err Unit × Redis :=
  let (failed, s) := s.roundTrip
  if failed then (.error .conn, s) else (.ok (), s.put key ⟨value, none⟩)

/-- `conn.Do("SETEX", key, seconds, value)`: the server refuses a non-positive time. -/
def doSetex (s : Redis) (key : String) (seconds : Int) (value : Bytes) :
    Except Err Unit × Redis :=
  let (failed, s) := s.roundTrip
  if failed then (.error .conn, s)
  else if seconds ≤ 0 then (.error (.server "ERR invalid expire time in 'setex' command"), s)
  else (.ok (), s.put key ⟨value, some (s.now + seconds.toNat * 1000)⟩)

/-- `conn.Do("DEL", key)`. -/
def doDel (s : Redis) (key : String) : Except Err Unit × Redis :=
  let (failed, s) := s.roundTrip
  if failed then (.error .conn, s)
  else (.ok (), { s with data := s.data.filter (fun e => e.1 != key) })

/-- Number of keyspace slots one SCAN call visits (the default COUNT). -/
def scanCount : Nat := 10

/-- `redis.Values(conn.Do("SCAN", cursor, "MATCH", pattern))`: the next cursor and the
live keys of the visited slots that match the glob pattern. -/
def doScan (s : Redis) (cursor : Nat) (pattern : String) :
    Except Err (Nat × List String) × Redis :=
  let (failed, s) := s.roundTrip
  if failed then (.error .conn, s)
  else
    let window := (s.data.drop cursor).take scanCount
    let keys := (window.filter (fun e => liveAt s.now e && stringmatch pattern e.1)).map (·.1)
    let next := if cursor + scanCount < s.data.length then cursor + scanCount else 0
    (.ok (next, keys), s)

end Redis

/-! ## `RedisCache` (cache.go) -/

/-- `RedisCache`: the pool lives in the `Redis` state. -/
structure RedisCache where
  Prefix : String
  deriving DecidableEq, Repr

namespace RedisCache

/-- `Has` checks to see if key exists in redis. -/
def Has (c : RedisCache) (str : String) (s : Redis) : Except Err Bool × Redis :=
  let key := storageKey c.Prefix str
  let s := s.borrow
  match s.doExists key with
  | (.error err, s) => (.error err, s.release)
  | (.ok ok, s) => (.ok ok, s.release)

/-- `Get` pulls an item from redis, unserializes it, and returns it. -/
def Get {V : Type} (g : Gob V) (c : RedisCache) (str : String) (s : Redis) :
    Except Err (Option V) × Redis :=
  let key := storageKey c.Prefix str
  let s := s.borrow
  match s.doGet key with
  | (.error err, s) => (.error err, s.release)
  | (.ok cacheEntry, s) =>
    match decode g cacheEntry with
    | .error err => (.error err, s.release)
    | .ok decoded => (.ok (decoded.index key), s.release)

/-- `Set` serializes an object and puts it into redis with optional expires. -/
def Set {V : Type} (g : Gob V) (c : RedisCache) (str : String) (value : Option V)
    (expires : List Int) (s : Redis) : Option Err × Redis :=
  let key := storageKey c.Prefix str
  let s := s.borrow
  match encode g [(key, value)] with
  | .error err => (some err, s.release)
  | .ok encoded =>
    match expires with
    | t :: _ =>
      match s.doSetex key t encoded with
      | (.error err, s) => (some err, s.release)
      | (.ok _, s) => (none, s.release)
    | [] =>
      match s.doSet key encoded with
      | (.error err, s) => (some err, s.release)
      | (.ok _, s) => (none, s.release)

/-- `Forget` drops an item from the cache. -/
def Forget (c : RedisCache) (str : String) (s : Redis) : Option Err × Redis :=
  let key := storageKey c.Prefix str
  let s := s.borrow
  match s.doDel key with
  | (.error err, s) => (some err, s.release)
  | (.ok _, s) => (none, s.release)

/-- The `for` loop of `getKeys`; `none` when `fuel` iterations did not reach cursor 0. -/
def getKeysLoop (pattern : String) :
    Nat → Nat → List String → Redis → Option ((List String × Option Err) × Redis)
  | 0, _, _, _ => none
  | fuel + 1, iter, keys, s =>
    match s.doScan iter (pattern ++ "*") with
    | (.error _, s) =>
      some ((keys, some (.msg ("error retrieving '" ++ pattern ++ "' keys"))), s)
    | (.ok (next, k), s) =>
      let keys := keys ++ k
      if next = 0 then some ((keys, none), s) else getKeysLoop pattern fuel next keys s

/-- `getKeys` scans redis for all entries matching pattern*. -/
def getKeys (_c : RedisCache) (fuel : Nat) (pattern : String) (s : Redis) :
    Option ((List String × Option Err) × Redis) :=
  let s := s.borrow
  match getKeysLoop pattern fuel 0 [] s with
  | none => none
  | some (r, s) => some (r, s.release)

/-- The `for _, x := range matches` loop shared by `Empty` and `EmptyByMatch`: the
result of `c.Forget(x)` is overwritten, then `DEL x` goes out on the caller's
connection. -/
def deleteMatches (c : RedisCache) : List String → Redis → Option Err × Redis
  | [], s => (none, s)
  | x :: xs, s =>
    let s := (c.Forget x s).2
    match s.doDel x with
    | (.error err, s) => (some err, s)
    | (.ok _, s) => deleteMatches c xs s

/-- `Empty` removes all cached entries for this application. -/
def Empty (c : RedisCache) (fuel : Nat) (s : Redis) : Option (Option Err × Redis) :=
  let key := c.Prefix ++ ":"
  let s := s.borrow
  match c.getKeys fuel key s with
  | none => none
  | some ((_, some err), s) => some (some err, s.release)
  | some ((found, none), s) =>
    let (r, s) := c.deleteMatches found s
    some (r, s.release)

/-- `EmptyByMatch` removes all entries in redis that match the prefix match. -/
def EmptyByMatch (c : RedisCache) (fuel : Nat) (str : String) (s : Redis) :
    Option (Option Err × Redis) :=
  let key := storageKey c.Prefix str
  let s := s.borrow
  match c.getKeys fuel key s with
  | none => none
  | some ((_, some err), s) => some (some err, s.release)
  | some ((found, none), s) =>
    let (r, s) := c.deleteMatches found s
    some (r, s.release)

end RedisCache

/-! ## The badger database -/

/-- Byte order of keys (`bytes.Compare(a, b) < 0`). -/
def keyLt : List Char → List Char → Bool
  | _, [] => false
  | [], _ :: _ => true
  | a :: as, b :: bs => decide (a.toNat < b.toNat) || (a == b && keyLt as bs)

/-- `bytes.HasPrefix(key, pfx)`. -/
def hasPrefix (pfx key : String) : Bool := pfx.data.isPrefixOf key.data

/-- A stored value with `ExpiresAt`, in Unix seconds; 0 means that it never expires. -/
structure BItem where
  value : Bytes
  expiresAt : Nat
  deriving DecidableEq, Repr

/-- The badger database. -/
structure Badger where
  /-- the entries, in key order -/
  data : List (String × BItem)
  /-- wall clock, nanoseconds since the epoch -/
  now : Nat
  /-- whether each of the coming update transactions fails -/
  faults : List Bool
  deriving DecidableEq, Repr

/-- Conversion to `int64`, wrapping. -/
def wrapInt64 (x : Int) : Int := (x + 2 ^ 63) % 2 ^ 64 - 2 ^ 63

/-- `time.Hour`, in nanoseconds. -/
def timeHour : Int := 3600 * 1000000000

namespace Badger

/-- `time.Now().Unix()`. -/
def unix (s : Badger) : Nat := s.now / 1000000000

/-- An entry is visible unless it has expired (`isDeletedOrExpired`). -/
def liveAt (sec : Nat) (e : String × BItem) : Bool :=
  e.2.expiresAt == 0 || decide (sec < e.2.expiresAt)

/-- The visible item under a key, for a clock in seconds and a list of entries. -/
def lookupIn (sec : Nat) (data : List (String × BItem)) (key : String) : Option BItem :=
  ((data.filter (liveAt sec)).find? (fun e => e.1 == key)).map (·.2)

/-- The entries a transaction can see. -/
def live (s : Badger) : List (String × BItem) := s.data.filter (liveAt s.unix)

/-- `txn.Get(key)`. -/
def lookup (s : Badger) (key : String) : Option BItem := lookupIn s.unix s.data key

/-- Time passes: `ns` nanoseconds. -/
def tick (s : Badger) (ns : Nat) : Badger := { s with now := s.now + ns }

/-- The keys strictly ascend. -/
def Sorted (s : Badger) : Prop :=
  s.data.Pairwise (fun a b => keyLt a.1.data b.1.data = true)

/-- Insertion of an entry at its place in key order, replacing an entry of that key. -/
def insertKey (e : String × BItem) : List (String × BItem) → List (String × BItem)
  | [] => [e]
  | x :: xs =>
    if keyLt e.1.data x.1.data then e :: x :: xs
    else if e.1 = x.1 then e :: xs
    else x :: insertKey e xs

/-- `db.Update(fn)`: the writes of `fn` are applied when the transaction commits, and
none of them when it fails. -/
def update (s : Badger) (fn : List (String × BItem) → List (String × BItem)) :
    Option Err × Badger :=
  match s.faults with
  | [] => (none, { s with data := fn s.data })
  | f :: fs =>
    if f then (some .conn, { s with faults := fs })
    else (none, { s with data := fn s.data, faults := fs })

/-- `ExpiresAt` of `WithTTL(dur)`: `uint64(time.Now().Add(dur).Unix())`. -/
def expiry (s : Badger) (dur : Int) : Nat :=
  ((((s.now : Int) + dur) / 1000000000) % 2 ^ 64).toNat

/-- The keys an iterator yields for `Seek(pfx); ValidForPrefix(pfx); Next()`: from the
first visible key not below `pfx`, for as long as the key has the prefix. -/
def iterKeys (s : Badger) (pfx : String) : List String :=
  (((s.live.dropWhile (fun e => keyLt e.1.data pfx.data)).takeWhile
    (fun e => hasPrefix pfx e.1)).map (·.1))

end Badger

/-! ## `BadgerCache` (badger-cache.go) -/

/-- `BadgerCache`: the database handle is the `Badger` state. -/
structure BadgerCache where
  Prefix : String
  deriving DecidableEq, Repr

/-- How a call ends: it returns its error result, or it panics. -/
inductive Outcome
  | returned (err : Option Err)
  | panicked (err : Err)
  deriving DecidableEq, Repr

namespace BadgerCache

/-- `Get` pulls an item from badger, unserializes it, and returns it. -/
def Get {V : Type} (g : Gob V) (b : BadgerCache) (str : String) (s : Badger) :
    Except Err (Option V) :=
  let key := storageKey b.Prefix str
  match s.lookup key with
  | none => .error .notFound
  | some item =>
    let fromCache := item.value
    match decode g fromCache with
    | .error err => .error err
    | .ok decoded => .ok (decoded.index key)

/-- `Has` checks for existence of key str in cache. -/
def Has {V : Type} (g : Gob V) (b : BadgerCache) (str : String) (s : Badger) :
    Except Err Bool :=
  match b.Get g str s with
  | .error err => .error err
  | .ok _ => .ok true

/-- `Set` serializes an object and puts it into badger with optional expires. -/
def Set {V : Type} (g : Gob V) (b : BadgerCache) (str : String) (value : Option V)
    (expires : List Int) (s : Badger) : Option Err × Badger :=
  let key := storageKey b.Prefix str
  match encode g [(key, value)] with
  | .error err => (some err, s)
  | .ok encoded =>
    match expires with
    | t :: _ =>
      s.update (Badger.insertKey (key, ⟨encoded, s.expiry (wrapInt64 (timeHour * t))⟩))
    | [] => s.update (Badger.insertKey (key, ⟨encoded, 0⟩))

/-- `Forget` drops an entry from the cache if it exists. -/
def Forget (b : BadgerCache) (str : String) (s : Badger) : Option Err × Badger :=
  let key := storageKey b.Prefix str
  s.update (fun d => d.filter (fun e => e.1 != key))

/-- The closure `deleteKeys`: one update transaction deleting every key of the batch. -/
def deleteKeys (keysForDelete : List String) (s : Badger) : Option Err × Badger :=
  s.update (fun d => d.filter (fun e => !keysForDelete.contains e.1))

/-- The iteration of `emptyByMatch` over the keys the iterator yields, with the batch
`keysForDelete` and the counter `keysCollected`. -/
def collectLoop (collectSize : Nat) :
    List String → List String → Nat → Badger → Outcome × Badger
  | [], keysForDelete, keysCollected, s =>
    if keysCollected > 0 then
      match deleteKeys keysForDelete s with
      | (some err, s) => (.panicked err, s)
      | (none, s) => (.returned none, s)
    else (.returned none, s)
  | key :: more, keysForDelete, keysCollected, s =>
    let keysForDelete := keysForDelete ++ [key]
    let keysCollected := keysCollected + 1
    if keysCollected = collectSize then
      match deleteKeys keysForDelete s with
      | (some err, s) => (.panicked err, s)
      | (none, s) => collectLoop collectSize more [] 0 s
    else collectLoop collectSize more keysForDelete keysCollected s

/-- The batch size `collectSize` of `emptyByMatch`. -/
def collectSize : Nat := 100000

/-- `emptyByMatch` drops the entries that begin with the prefix string. -/
def emptyByMatch (b : BadgerCache) (str : String) (s : Badger) : Outcome × Badger :=
  let pfx := storageKey b.Prefix str
  collectLoop collectSize (s.iterKeys pfx) [] 0 s

/-- `Empty` empties the cache for all cached values for this application. -/
def Empty (b : BadgerCache) (s : Badger) : Outcome × Badger := b.emptyByMatch "" s

/-- `EmptyByMatch` removes all entries that match the prefix match. -/
def EmptyByMatch (b : BadgerCache) (str : String) (s : Badger) : Outcome × Badger :=
  b.emptyByMatch str s

end BadgerCache

/-! ## A small concrete codec, for evaluating the definitions -/

/-- Encoder of the demonstration codec: each binding as the key length, the key and a
tagged number. -/
def demoEnc : Entry Nat → Bytes
  | [] => []
  | (k, v) :: rest =>
    (k.length :: k.data.map Char.toNat) ++
      (match v with
        | none => [0]
        | some n => [1, n]) ++ demoEnc rest

/-- Decoder of the demonstration codec. -/
def demoDec : Nat → Bytes → Option (Entry Nat)
  | _, [] => some []
  | 0, _ :: _ => none
  | fuel + 1, len :: bs =>
    let k := String.mk ((bs.take len).map Char.ofNat)
    match bs.drop len with
    | 0 :: rest => (demoDec fuel rest).map (fun m => (k, none) :: m)
    | 1 :: n :: rest => (demoDec fuel rest).map (fun m => (k, some n) :: m)
    | _ => none

/-- The demonstration codec. -/
def demoGob : Gob Nat where
  enc := fun m => some (demoEnc m)
  dec := fun b => demoDec b.length b

/-- A database holding `app:order:1`, `app:user:1` and `app:user:2`. -/
def demoBadger : Badger :=
  ⟨[("app:order:1", ⟨[1], 0⟩), ("app:user:1", ⟨[2], 0⟩), ("app:user:2", ⟨[3], 0⟩)], 0, []⟩

/-- A keyspace holding `app:user:1`, `app:user:2` and `app:order:1`. -/
def demoRedis : Redis :=
  ⟨[("app:user:1", ⟨[2], none⟩), ("app:user:2", ⟨[3], none⟩), ("app:order:1", ⟨[1], none⟩)],
    0, [], 0, 0⟩

/-- A keyspace holding the single key `app:ab`. -/
def demoGlob : Redis := ⟨[("app:ab", ⟨[1], none⟩)], 0, [], 0, 0⟩

/-- A keyspace holding `app:user:1`, `app:app:user:1` and `app:order:1`. -/
def demoNested : Redis :=
  ⟨[("app:user:1", ⟨[1], none⟩), ("app:app:user:1", ⟨[2], none⟩),
    ("app:order:1", ⟨[3], none⟩)], 0, [], 0, 0⟩

/-- The boolean of a Go result `(bool, error)`: `false` comes with every error. -/
def resultBool : Except Err Bool → Bool
  | .ok b => b
  | .error _ => false

/-- A database whose entry under `app:k` holds bytes that are no encoding. -/
def demoCorrupt : Badger := ⟨[("app:k", ⟨[5], 0⟩)], 0, []⟩

/-- A keyspace whose entry under `app:k` holds the payload written for `other:k`. -/
def demoForeignRedis : Redis :=
  ⟨[("app:k", ⟨demoEnc [("other:k", some 7)], none⟩)], 0, [], 0, 0⟩

/-- A database whose entry under `app:k` holds the payload written for `other:k`. -/
def demoForeignBadger : Badger :=
  ⟨[("app:k", ⟨demoEnc [("other:k", some 7)], 0⟩)], 0, []⟩

/-- No coming update transaction of the database is scheduled to fail. -/
def Badger.Reliable (s : Badger) : Prop := ∀ f ∈ s.faults, f = false

/-- No coming command of the server is scheduled to fail. -/
def Redis.Reliable (s : Redis) : Prop := ∀ f ∈ s.faults, f = false

/-- A database with one entry, written through the namespace `app:x` under the key
`k`. -/
def demoSharedBadger : Badger :=
  ⟨[("app:x:k", ⟨demoEnc [("app:x:k", some 7)], 0⟩)], 0, []⟩

/-- A keyspace with one entry, written through the namespace `app:x` under the key
`k`. -/
def demoSharedRedis : Redis :=
  ⟨[("app:x:k", ⟨demoEnc [("app:x:k", some 7)], none⟩)], 0, [], 0, 0⟩

/-- A keyspace with one entry, written through the namespace `b` under the key `k`. -/
def demoOtherRedis : Redis :=
  ⟨[("b:k", ⟨demoEnc [("b:k", some 7)], none⟩)], 0, [], 0, 0⟩

/-- A keyspace whose entry under `app:k` holds the payload `Set` writes for 7. -/
def demoStoredRedis : Redis :=
  ⟨[("app:k", ⟨demoEnc [("app:k", some 7)], none⟩)], 0, [], 0, 0⟩

/-- A database whose entry under `app:k` holds the payload `Set` writes for 7. -/
def demoStoredBadger : Badger :=
  ⟨[("app:k", ⟨demoEnc [("app:k", some 7)], 0⟩)], 0, []⟩

/-- A keyspace that holds `app:user:1` and the entry written through the namespace `b`
under the key `k` for the value 7. -/
def demoTwoRedis : Redis :=
  ⟨[("app:user:1", ⟨[2], none⟩), ("b:k", ⟨demoEnc [("b:k", some 7)], none⟩)], 0, [], 0, 0⟩

/-- A database that holds `app:user:1` and the entry written through the namespace `b`
under the key `k` for the value 7. -/
def demoTwoBadger : Badger :=
  ⟨[("app:user:1", ⟨[2], 0⟩), ("b:k", ⟨demoEnc [("b:k", some 7)], 0⟩)], 0, []⟩

/-! ## The loops over any connection and any database handle

The same loops with the connection (`conn.Do`) and the delete transaction as
parameters, so that the commands and transactions they issue can be recorded. -/

/-- What `RedisCache` uses of the pool and of a connection, over any state. -/
structure Wire (σ : Type) where
  /-- `pool.Get()` -/
  borrow : σ → σ
  /-- `conn.Close()` -/
  release : σ → σ
  /-- `redis.Values(conn.Do("SCAN", cursor, "MATCH", pattern))` -/
  scan : σ → Nat → String → Except Err (Nat × List String) × σ
  /-- `conn.Do("DEL", key)` -/
  del : σ → String → Except Err Unit × σ

/-- The `for` loop of `getKeys` over any connection. -/
def getKeysLoopOn {σ : Type} (w : Wire σ) (pattern : String) :
    Nat → Nat → List String → σ → Option ((List String × Option Err) × σ)
  | 0, _, _, _ => none
  | fuel + 1, iter, keys, s =>
    match w.scan s iter (pattern ++ "*") with
    | (.error _, s) =>
      some ((keys, some (.msg ("error retrieving '" ++ pattern ++ "' keys"))), s)
    | (.ok (next, k), s) =>
      let keys := keys ++ k
      if next = 0 then some ((keys, none), s) else getKeysLoopOn w pattern fuel next keys s

/-- `getKeys` over any connection. -/
def getKeysOn {σ : Type} (w : Wire σ) (fuel : Nat) (pattern : String) (s : σ) :
    Option ((List String × Option Err) × σ) :=
  let s := w.borrow s
  match getKeysLoopOn w pattern fuel 0 [] s with
  | none => none
  | some (r, s) => some (r, w.release s)

/-- `Forget` over any connection. -/
def ForgetOn {σ : Type} (w : Wire σ) (c : RedisCache) (str : String) (s : σ) :
    Option Err × σ :=
  let key := storageKey c.Prefix str
  let s := w.borrow s
  match w.del s key with
  | (.error err, s) => (some err, w.release s)
  | (.ok _, s) => (none, w.release s)

/-- The `for _, x := range matches` loop over any connection. -/
def deleteMatchesOn {σ : Type} (w : Wire σ) (c : RedisCache) :
    List String → σ → Option Err × σ
  | [], s => (none, s)
  | x :: xs, s =>
    let s := (ForgetOn w c x s).2
    match w.del s x with
    | (.error err, s) => (some err, s)
    | (.ok _, s) => deleteMatchesOn w c xs s

/-- `EmptyByMatch` over any connection. -/
def EmptyByMatchOn {σ : Type} (w : Wire σ) (c : RedisCache) (fuel : Nat) (str : String)
    (s : σ) : Option (Option Err × σ) :=
  let key := storageKey c.Prefix str
  let s := w.borrow s
  match getKeysOn w fuel key s with
  | none => none
  | some ((_, some err), s) => some (some err, w.release s)
  | some ((found, none), s) =>
    let (r, s) := deleteMatchesOn w c found s
    some (r, w.release s)

/-- The pool and the connections of the redis server. -/
def redisWire : Wire Redis where
  borrow := Redis.borrow
  release := Redis.release
  scan := Redis.doScan
  del := Redis.doDel

/-- A command as it goes out on a connection. -/
inductive Cmd
  | scan (cursor : Nat) (pattern : String)
  | del (key : String)
  deriving DecidableEq, Repr

/-- A scripted connection: the replies to the SCAN requests to come (`none` for a
request that fails) and the commands sent so far, oldest first. -/
structure Script where
  replies : List (Option (Nat × List String))
  sent : List Cmd
  deriving DecidableEq, Repr

/-- The scripted connection answers each SCAN with the next reply of the script, lets
every DEL succeed, and records both. -/
def scriptWire : Wire Script where
  borrow := fun st => st
  release := fun st => st
  scan := fun st cursor pattern =>
    match st.replies with
    | [] => (.error .conn, ⟨[], st.sent ++ [.scan cursor pattern]⟩)
    | none :: rest => (.error .conn, ⟨rest, st.sent ++ [.scan cursor pattern]⟩)
    | some r :: rest => (.ok r, ⟨rest, st.sent ++ [.scan cursor pattern]⟩)
  del := fun st key => (.ok (), ⟨st.replies, st.sent ++ [.del key]⟩)

/-- The iteration of `emptyByMatch` with the delete transaction `deleteKeys` as a
parameter. -/
def collectLoopOn {σ : Type} (deleteKeys : List String → σ → Option Err × σ)
    (collectSize : Nat) : List String → List String → Nat → σ → Outcome × σ
  | [], keysForDelete, keysCollected, s =>
    if keysCollected > 0 then
      match deleteKeys keysForDelete s with
      | (some err, s) => (.panicked err, s)
      | (none, s) => (.returned none, s)
    else (.returned none, s)
  | key :: more, keysForDelete, keysCollected, s =>
    let keysForDelete := keysForDelete ++ [key]
    let keysCollected := keysCollected + 1
    if keysCollected = collectSize then
      match deleteKeys keysForDelete s with
      | (some err, s) => (.panicked err, s)
      | (none, s) => collectLoopOn deleteKeys collectSize more [] 0 s
    else collectLoopOn deleteKeys collectSize more keysForDelete keysCollected s

/-- A delete transaction that succeeds and is recorded: the batches so far, oldest
first. -/
def recordBatch (keysForDelete : List String) (log : List (List String)) :
    Option Err × List (List String) :=
  (none, log ++ [keysForDelete])

/-- The delete transactions `emptyByMatch` issues for the keys the iterator yields, when
each of them succeeds. -/
def issued (collectSize : Nat) (keys : List String) : List (List String) :=
  (collectLoopOn recordBatch collectSize keys [] 0 []).2

/-- The batches run one after the other as delete transactions, up to the first that
fails, which panics. -/
def runBatches {σ : Type} (deleteKeys : List String → σ → Option Err × σ) :
    List (List String) → σ → Outcome × σ
  | [], s => (.returned none, s)
  | b :: bs, s =>
    match deleteKeys b s with
    | (some err, s) => (.panicked err, s)
    | (none, s) => runBatches deleteKeys bs s

/-! ## `Validation` (validator.go) -/

/-- `Validation` holds the error map; `none` is the nil map. -/
structure Validation where
  /-- `url.Values` -/
  Data : List (String × List String)
  /-- `map[string]string` -/
  Errors : Option (List (String × String))
  deriving DecidableEq, Repr

namespace Validation

/-- `Validator` creates a new instance with an empty map. -/
def Validator (data : List (String × List String)) : Validation := ⟨data, some []⟩

/-- The message under a key of the error map, if any (`v.Errors[key]`). -/
def entry (v : Validation) (key : String) : Option String :=
  match v.Errors with
  | none => none
  | some m => m.lookup key

/-- `Valid` returns true if the errors map does not contain any entries. -/
def Valid (v : Validation) : Bool :=
  match v.Errors with
  | none => true
  | some m => m.length == 0

/-- `AddError` adds an error message to the map; `none` is the panic of an assignment
to an entry of a nil map. -/
def AddError (v : Validation) (key message : String) : Option Validation :=
  match v.Errors with
  | none => none
  | some m =>
    if (m.lookup key).isSome then some v
    else some { v with Errors := some (m ++ [(key, message)]) }

/-- `Check` adds an error message to the map only if a validation check is not ok. -/
def Check (v : Validation) (ok : Bool) (key message : String) : Option Validation :=
  if !ok then v.AddError key message else some v

end Validation

/-! ## `Session.InitSession` (session/session.go) -/

/-- Digits of a decimal numeral, most significant first, onto the value so far. -/
def parseDigits : List Char → Nat → Option Nat
  | [], acc => some acc
  | c :: cs, acc =>
    if '0'.toNat ≤ c.toNat ∧ c.toNat ≤ '9'.toNat then
      parseDigits cs (acc * 10 + (c.toNat - '0'.toNat))
    else none

/-- `strconv.Atoi` on a 64-bit platform: an optional sign and at least one decimal
digit, with a value an `int` can hold; `none` is a non-nil error. -/
def Atoi (str : String) : Option Int :=
  match str.data with
  | [] => none
  | '-' :: ds =>
    match ds, parseDigits ds 0 with
    | _ :: _, some n => if n ≤ 2 ^ 63 then some (-(n : Int)) else none
    | _, _ => none
  | '+' :: ds =>
    match ds, parseDigits ds 0 with
    | _ :: _, some n => if n < 2 ^ 63 then some (n : Int) else none
    | _, _ => none
  | ds =>
    match parseDigits ds 0 with
    | some n => if n < 2 ^ 63 then some (n : Int) else none
    | none => none

/-- `time.Minute`, in nanoseconds. -/
def timeMinute : Int := 60 * 1000000000

/-- `Session` is the type used to initialize the package (the pools left out). -/
structure Session where
  CookieLifetime : String
  CookiePersist : String
  CookieName : String
  CookieDomain : String
  SessionType : String
  deriving DecidableEq, Repr

/-- The store of a session manager; `scs.New()` starts with the in-memory store. -/
inductive SessionStore
  | memstore
  | redisstore
  | mysqlstore
  | postgresstore
  deriving DecidableEq, Repr

/-- `http.SameSite`. -/
inductive SameSite
  | defaultMode
  | laxMode
  | strictMode
  | noneMode
  deriving DecidableEq, Repr

/-- `scs.SessionCookie`, the fields `InitSession` sets. -/
structure SessionCookie where
  Name : String
  Domain : String
  Persist : Bool
  Secure : Bool
  SameSite : SameSite
  deriving DecidableEq, Repr

/-- `scs.SessionManager`: the lifetime (a `time.Duration`, in nanoseconds), the cookie
and the store. -/
structure SessionManager where
  Lifetime : Int
  Cookie : SessionCookie
  Store : SessionStore
  deriving DecidableEq, Repr

/-- `InitSession` creates a session manager, and returns it; `toLower` is
`strings.ToLower`. -/
def Session.InitSession (toLower : String → String) (c : Session) : SessionManager :=
  let minutes : Int :=
    match Atoi c.CookieLifetime with
    | some m => m
    | none => 60
  let persist : Bool := if toLower c.CookiePersist = "true" then true else false
  let secure : Bool := if toLower c.CookiePersist = "true" then true else false
  let lowered := toLower c.SessionType
  { Lifetime := wrapInt64 (minutes * timeMinute)
    Cookie :=
      { Name := c.CookieName
        Domain := c.CookieDomain
        Persist := persist
        Secure := secure
        SameSite := .laxMode }
    Store :=
      if lowered = "redis" then .redisstore
      else if lowered = "mysql" ∨ lowered = "mariadb" then .mysqlstore
      else if lowered = "postgres" ∨ lowered = "postgresql" then .postgresstore
      else .memstore }

/-- Lower case of the letters A to Z, every other character as it is. -/
def asciiLower (str : String) : String := ⟨str.data.map Char.toLower⟩

/-! ## Lemmas on the stores -/

section StoreLemmas

theorem find_put_self {α : Type} (l : List (String × α)) (key : String) (it : α)
    (p : String × α → Bool) (hp : p (key, it) = true) :
    ((l.filter (fun e => e.1 != key) ++ [(key, it)]).filter p).find? (fun e => e.1 == key)
      = some (key, it) := by
  induction l with
  | nil => simp [hp]
  | cons x xs ih =>
    by_cases hx : x.1 = key
    · simpa [List.filter_cons, hx] using ih
    · by_cases hpx : p x = true
      · simpa [List.filter_cons, hx, hpx] using ih
      · simpa [List.filter_cons, hx, hpx] using ih

theorem find_insertKey_self (e : String × BItem) (l : List (String × BItem))
    (p : String × BItem → Bool) (hp : p e = true) :
    ((Badger.insertKey e l).filter p).find? (fun x => x.1 == e.1) = some e := by
  induction l with
  | nil => simp [Badger.insertKey, hp]
  | cons x xs ih =>
    unfold Badger.insertKey
    split
    · simp [List.filter_cons, hp]
    · split
      · simp [List.filter_cons, hp]
      · rename_i hne
        by_cases hpx : p x = true
        · simp only [List.filter_cons, hpx, if_true, List.find?_cons]
          have : (x.1 == e.1) = false := by
            simpa using fun h => hne h.symm
          simpa [this] using ih
        · simpa [List.filter_cons, hpx] using ih

theorem filter_insertKey_ne (e : String × BItem) (l : List (String × BItem)) :
    (Badger.insertKey e l).filter (fun x => x.1 != e.1) = l.filter (fun x => x.1 != e.1) := by
  induction l with
  | nil => simp [Badger.insertKey]
  | cons x xs ih =>
    unfold Badger.insertKey
    split
    · simp [List.filter_cons]
    · split
      · rename_i heq
        simp [List.filter_cons, heq]
      · simp [List.filter_cons, ih]

theorem keyLt_irrefl (a : List Char) : keyLt a a = false := by
  induction a with
  | nil => rfl
  | cons x xs ih => simp [keyLt, ih]

theorem keyLt_trans : ∀ (a b c : List Char), keyLt a b = true → keyLt b c = true →
    keyLt a c = true
  | _, [], _, h, _ => by simp [keyLt] at h
  | _, _ :: _, [], _, h => by simp [keyLt] at h
  | [], _ :: _, _ :: _, _, _ => by simp [keyLt]
  | x :: xs, y :: ys, z :: zs, h1, h2 => by
    simp only [keyLt, Bool.or_eq_true, decide_eq_true_eq, Bool.and_eq_true, beq_iff_eq]
      at h1 h2 ⊢
    rcases h1 with h1 | ⟨h1, h1t⟩
    · rcases h2 with h2 | ⟨h2, _⟩
      · left; omega
      · subst h2; left; exact h1
    · subst h1
      rcases h2 with h2 | ⟨h2, h2t⟩
      · left; exact h2
      · right; exact ⟨h2, keyLt_trans xs ys zs h1t h2t⟩

/-- A key is not below any of its prefixes. -/
theorem keyLt_of_isPrefixOf : ∀ (pfx k : List Char), pfx.isPrefixOf k = true →
    keyLt k pfx = false
  | [], _, _ => by cases ‹List Char› <;> simp [keyLt]
  | _ :: _, [], h => by simp [List.isPrefixOf] at h
  | c :: ps, d :: ks, h => by
    simp only [List.isPrefixOf, Bool.and_eq_true, beq_iff_eq] at h
    obtain ⟨hcd, ht⟩ := h
    subst hcd
    simp [keyLt, keyLt_of_isPrefixOf ps ks ht]

/-- The keys with a given prefix are an interval of the key order: a key between the
prefix and a key that has the prefix has the prefix too. -/
theorem isPrefixOf_of_between : ∀ (pfx a b : List Char), keyLt a b = true →
    keyLt a pfx = false → pfx.isPrefixOf b = true → pfx.isPrefixOf a = true
  | [], _, _, _, _, _ => by simp [List.isPrefixOf]
  | _ :: _, _, [], _, _, h => by simp [List.isPrefixOf] at h
  | _ :: _, [], _ :: _, _, h, _ => by simp [keyLt] at h
  | c :: ps, d :: as, e :: bs, hab, hap, hpb => by
    simp only [List.isPrefixOf, Bool.and_eq_true, beq_iff_eq] at hpb ⊢
    obtain ⟨hce, hpt⟩ := hpb
    subst hce
    simp only [keyLt, Bool.or_eq_true, decide_eq_true_eq, Bool.and_eq_true, beq_iff_eq]
      at hab
    simp only [keyLt, Bool.or_eq_false_iff, decide_eq_false_iff_not, Bool.and_eq_false_imp,
      beq_iff_eq] at hap
    rcases hab with hlt | ⟨hdc, habt⟩
    · exact absurd hlt hap.1
    · subst hdc
      exact ⟨rfl, isPrefixOf_of_between ps as bs habt (hap.2 rfl) hpt⟩

theorem takeWhile_eq_filter {α : Type} (R : α → α → Prop) (q : α → Bool) (l : List α)
    (hl : l.Pairwise R) (hq : ∀ a ∈ l, ∀ b ∈ l, R a b → q b = true → q a = true) :
    l.takeWhile q = l.filter q := by
  induction l with
  | nil => rfl
  | cons x xs ih =>
    rw [List.pairwise_cons] at hl
    have ih' := ih hl.2 (fun a ha b hb => hq a (List.mem_cons_of_mem _ ha) b
      (List.mem_cons_of_mem _ hb))
    by_cases hx : q x = true
    · simp [List.takeWhile_cons, List.filter_cons, hx, ih']
    · have hnone : xs.filter q = [] := by
        rw [List.filter_eq_nil_iff]
        intro y hy hqy
        exact hx (hq x (List.mem_cons_self _ _) y (List.mem_cons_of_mem _ hy) (hl.1 y hy) hqy)
      simp [List.takeWhile_cons, List.filter_cons, hx, hnone]

theorem dropWhile_eq_filter {α : Type} (R : α → α → Prop) (q : α → Bool) (l : List α)
    (hl : l.Pairwise R) (hq : ∀ a b, R a b → q b = true → q a = true) :
    l.dropWhile q = l.filter (fun a => !q a) := by
  induction l with
  | nil => rfl
  | cons x xs ih =>
    rw [List.pairwise_cons] at hl
    by_cases hx : q x = true
    · simp [List.dropWhile_cons, List.filter_cons, hx, ih hl.2]
    · have hall : xs.filter (fun a => !q a) = xs := by
        rw [List.filter_eq_self]
        intro y hy
        have : ¬ q y = true := fun hqy => hx (hq x y (hl.1 y hy) hqy)
        simpa using this
      simp [List.dropWhile_cons, List.filter_cons, hx, hall]

/-- On a sorted database the iterator of `emptyByMatch` yields the visible keys that
have the prefix, each once, in key order. -/
theorem iterKeys_eq (s : Badger) (pfx : String) (hs : s.Sorted) :
    s.iterKeys pfx = (s.live.filter (fun e => hasPrefix pfx e.1)).map (·.1) := by
  have hlive : s.live.Pairwise (fun a b => keyLt a.1.data b.1.data = true) :=
    List.Pairwise.sublist (List.filter_sublist _) hs
  unfold Badger.iterKeys
  rw [dropWhile_eq_filter _ (fun e => keyLt e.1.data pfx.data) s.live hlive
    (fun a b hab hb => keyLt_trans _ _ _ hab hb)]
  rw [takeWhile_eq_filter _ (fun e => hasPrefix pfx e.1) _
    (List.Pairwise.sublist (List.filter_sublist _) hlive)]
  · rw [List.filter_filter]
    congr 1
    apply List.filter_congr
    intro e _
    by_cases hp : hasPrefix pfx e.1 = true
    · simp [hp, keyLt_of_isPrefixOf _ _ hp]
    · simp [hp]
  · intro a ha b _ hab hb
    have ha' : keyLt a.1.data pfx.data = false := by
      simpa using (List.mem_filter.mp ha).2
    exact isPrefixOf_of_between _ _ _ hab ha' hb

/-- On a sorted database an entry is determined by its key. -/
theorem eq_of_key_eq (l : List (String × BItem))
    (hl : l.Pairwise (fun a b => keyLt a.1.data b.1.data = true))
    (e e2 : String × BItem) (he : e ∈ l) (he2 : e2 ∈ l) (hk : e.1 = e2.1) : e = e2 := by
  induction l with
  | nil => simp at he
  | cons x xs ih =>
    rw [List.pairwise_cons] at hl
    rcases List.mem_cons.mp he with h1 | h1 <;> rcases List.mem_cons.mp he2 with h2 | h2
    · rw [h1, h2]
    · subst h1
      have := hl.1 e2 h2
      rw [hk, keyLt_irrefl] at this
      exact absurd this (by simp)
    · subst h2
      have := hl.1 e h1
      rw [hk, keyLt_irrefl] at this
      exact absurd this (by simp)
    · exact ih hl.2 h1 h2

/-- A pattern of plain characters followed by a star matches the strings that begin
with those characters, from the second character on. -/
theorem matchFuel_literal : ∀ (lit str : List Char) (fuel : Nat),
    (∀ c ∈ lit, isMeta c = false) → lit.length < fuel →
    (if str.isEmpty then ((lit ++ ['*']).dropWhile (· == '*')).isEmpty
      else matchFuel fuel (lit ++ ['*']) str) = lit.isPrefixOf str
  | [], [], _, _, _ => by simp [List.dropWhile]
  | [], _ :: _, fuel + 1, _, _ => by simp [matchFuel, List.dropWhile]
  | c :: l, [], _, h, _ => by
    have hc := h c (List.mem_cons_self _ _)
    simp only [isMeta, Bool.or_eq_false_iff] at hc
    simp [List.dropWhile, hc.1.1.1, List.isPrefixOf]
  | c :: l, d :: ds, fuel + 1, h, hlen => by
    have hc := h c (List.mem_cons_self _ _)
    simp only [isMeta, Bool.or_eq_false_iff, beq_eq_false_iff_ne, ne_eq] at hc
    obtain ⟨⟨⟨h1, h2⟩, h3⟩, h4⟩ := hc
    have ih := matchFuel_literal l ds fuel
      (fun x hx => h x (List.mem_cons_of_mem _ hx))
      (by simp only [List.length_cons] at hlen; omega)
    simp only [List.isEmpty_cons, Bool.false_eq_true, if_false, List.cons_append,
      matchFuel, h1, h2, h3, h4, List.isPrefixOf]
    by_cases hcd : c = d
    · subst hcd
      simpa using ih
    · simp [hcd]

/-- For a namespace and a pattern without glob metacharacters, the SCAN pattern of
`getKeys` selects the keys that begin with the storage prefix. -/
theorem stringmatch_storageKey (n p key : String) (hn : globFree n = true)
    (hp : globFree p = true) :
    stringmatch (storageKey n p ++ "*") key = hasPrefix (storageKey n p) key := by
  have hlit : ∀ c ∈ (storageKey n p).data, isMeta c = false := by
    intro c hc
    simp only [storageKey, String.data_append, List.mem_append] at hc
    simp only [globFree, List.all_eq_true, Bool.not_eq_true'] at hn hp
    rcases hc with (hc | hc) | hc
    · exact hn c hc
    · have : c = ':' := by simpa using hc
      subst this
      decide
    · exact hp c hc
  have hdata : (storageKey n p ++ "*").data = (storageKey n p).data ++ ['*'] := by
    rw [String.data_append]
  have hlen : (storageKey n p ++ "*").length = (storageKey n p).data.length + 1 := by
    show (storageKey n p ++ "*").data.length = _
    rw [hdata, List.length_append]
    rfl
  have hmain := matchFuel_literal (storageKey n p).data key.data
    ((storageKey n p ++ "*").length + key.length + 1) hlit (by omega)
  unfold stringmatch hasPrefix
  rw [← hmain, hdata]
  cases hk : key.data with
  | nil =>
    have hne : (storageKey n p).data ≠ [] := by
      simp [storageKey, String.data_append]
    cases hsk : (storageKey n p).data with
    | nil => exact absurd hsk hne
    | cons c l =>
      have hc : isMeta c = false := hlit c (by rw [hsk]; exact List.mem_cons_self _ _)
      simp only [isMeta, Bool.or_eq_false_iff] at hc
      simp [matchFuel, List.dropWhile, hc.1.1.1]
  | cons d ds => simp

theorem hasPrefix_nested (n q x : String) (h : hasPrefix q x = true) :
    hasPrefix (n ++ ":" ++ q) (n ++ ":" ++ x) = true := by
  unfold hasPrefix at h ⊢
  rw [List.isPrefixOf_iff_prefix] at h ⊢
  simp only [String.data_append, List.append_assoc]
  exact (List.prefix_append_right_inj _).mpr ((List.prefix_append_right_inj _).mpr h)

theorem find_filter_ne {α : Type} (l : List (String × α)) (key : String)
    (p : String × α → Bool) :
    ((l.filter (fun e => e.1 != key)).filter p).find? (fun e => e.1 == key) = none := by
  rw [List.find?_eq_none]
  intro e he
  have := (List.mem_filter.mp (List.mem_filter.mp he).1).2
  simpa using this

theorem char_toNat_inj (a b : Char) (h : a.toNat = b.toNat) : a = b :=
  Char.eq_of_val_eq (UInt32.eq_of_val_eq (Fin.eq_of_val_eq h))

/-- The byte order of keys is total. -/
theorem keyLt_total : ∀ (a b : List Char), keyLt a b = false → a ≠ b → keyLt b a = true
  | [], [], _, h => absurd rfl h
  | [], _ :: _, h, _ => by simp [keyLt] at h
  | _ :: _, [], _, _ => by simp [keyLt]
  | x :: xs, y :: ys, h, hne => by
    simp only [keyLt, Bool.or_eq_false_iff, decide_eq_false_iff_not, Bool.and_eq_false_imp,
      beq_iff_eq] at h
    simp only [keyLt, Bool.or_eq_true, decide_eq_true_eq, Bool.and_eq_true, beq_iff_eq]
    by_cases hlt : y.toNat < x.toNat
    · exact Or.inl hlt
    · have hxy : x = y := char_toNat_inj x y (by omega)
      subst hxy
      refine Or.inr ⟨rfl, keyLt_total xs ys (h.2 rfl) ?_⟩
      intro hxs
      exact hne (by rw [hxs])

theorem mem_insertKey (e y : String × BItem) (l : List (String × BItem))
    (h : y ∈ Badger.insertKey e l) : y = e ∨ y ∈ l := by
  induction l with
  | nil => simpa [Badger.insertKey] using h
  | cons x xs ih =>
    unfold Badger.insertKey at h
    split at h
    · simpa using h
    · split at h
      · rcases List.mem_cons.mp h with h | h
        · exact Or.inl h
        · exact Or.inr (List.mem_cons_of_mem _ h)
      · rcases List.mem_cons.mp h with h | h
        · exact Or.inr (h ▸ List.mem_cons_self _ _)
        · rcases ih h with h | h
          · exact Or.inl h
          · exact Or.inr (List.mem_cons_of_mem _ h)

/-- Insertion at the place of the key keeps the entries in key order. -/
theorem insertKey_sorted (e : String × BItem) (l : List (String × BItem))
    (hl : l.Pairwise (fun a b => keyLt a.1.data b.1.data = true)) :
    (Badger.insertKey e l).Pairwise (fun a b => keyLt a.1.data b.1.data = true) := by
  induction l with
  | nil => simp [Badger.insertKey]
  | cons x xs ih =>
    have hl2 := List.pairwise_cons.mp hl
    unfold Badger.insertKey
    split
    · rename_i hlt
      refine List.pairwise_cons.mpr ⟨?_, hl⟩
      intro y hy
      rcases List.mem_cons.mp hy with hy | hy
      · rw [hy]; exact hlt
      · exact keyLt_trans _ _ _ hlt (hl2.1 y hy)
    · split
      · rename_i heq
        refine List.pairwise_cons.mpr ⟨?_, hl2.2⟩
        intro y hy
        rw [heq]
        exact hl2.1 y hy
      · rename_i hnlt hne
        refine List.pairwise_cons.mpr ⟨?_, ih hl2.2⟩
        intro y hy
        rcases mem_insertKey e y xs hy with hy | hy
        · rw [hy]
          refine keyLt_total _ _ (by simpa using hnlt) ?_
          intro hd
          exact hne (String.ext hd)
        · exact hl2.1 y hy

end StoreLemmas

/-! ## What each operation returns and leaves behind -/

section Operations

variable {V : Type}

theorem redis_lookupIn_put_self (now : Nat) (data : List (String × RItem)) (key : String)
    (it : RItem) (h : Redis.liveAt now (key, it) = true) :
    Redis.lookupIn now (data.filter (fun e => e.1 != key) ++ [(key, it)]) key = some it := by
  unfold Redis.lookupIn
  rw [find_put_self data key it _ h]
  rfl

theorem badger_lookupIn_insertKey_self (sec : Nat) (data : List (String × BItem))
    (e : String × BItem) (h : Badger.liveAt sec e = true) :
    Badger.lookupIn sec (Badger.insertKey e data) e.1 = some e.2 := by
  unfold Badger.lookupIn
  rw [find_insertKey_self e data _ h]
  rfl

/-- The result of `RedisCache.Get`, from the keyspace. -/
theorem redis_Get_fst (g : Gob V) (c : RedisCache) (k : String) (s : Redis) :
    (RedisCache.Get g c k s).1 =
      if s.roundTrip.1 then .error .conn
      else match Redis.lookupIn s.now s.data (storageKey c.Prefix k) with
        | none => .error .notFound
        | some it =>
          match g.dec it.value with
          | none => .error .decodeErr
          | some m => .ok (m.index (storageKey c.Prefix k)) := by
  rcases s with ⟨data, now, faults, active, borrows⟩
  rcases faults with _ | ⟨f, fs⟩
  · simp only [RedisCache.Get, Redis.doGet, Redis.roundTrip, Redis.borrow, Redis.lookup,
      decode]
    cases Redis.lookupIn now data (storageKey c.Prefix k) with
    | none => simp
    | some it => cases hd : g.dec it.value <;> simp [hd]
  · cases f
    · simp only [RedisCache.Get, Redis.doGet, Redis.roundTrip, Redis.borrow, Redis.lookup,
        decode]
      cases Redis.lookupIn now data (storageKey c.Prefix k) with
      | none => simp
      | some it => cases hd : g.dec it.value <;> simp [hd]
    · simp [RedisCache.Get, Redis.doGet, Redis.roundTrip, Redis.borrow]

/-- A successful `RedisCache.Set` without TTL: the payload and the keyspace it leaves. -/
theorem redis_Set_ok (g : Gob V) (c : RedisCache) (k : String) (v : Option V)
    (s : Redis) (h : (RedisCache.Set g c k v [] s).1 = none) :
    ∃ b, g.enc [(storageKey c.Prefix k, v)] = some b ∧
      (RedisCache.Set g c k v [] s).2.data =
        s.data.filter (fun e => e.1 != storageKey c.Prefix k) ++
          [(storageKey c.Prefix k, ⟨b, none⟩)] ∧
      (RedisCache.Set g c k v [] s).2.now = s.now := by
  rcases s with ⟨data, now, faults, active, borrows⟩
  cases henc : g.enc [(storageKey c.Prefix k, v)] with
  | none => simp [RedisCache.Set, encode, henc] at h
  | some b =>
    refine ⟨b, rfl, ?_⟩
    rcases faults with _ | ⟨f, fs⟩
    · simp [RedisCache.Set, encode, henc, Redis.doSet, Redis.roundTrip, Redis.borrow,
        Redis.release, Redis.put]
    · cases f
      · simp [RedisCache.Set, encode, henc, Redis.doSet, Redis.roundTrip, Redis.borrow,
          Redis.release, Redis.put]
      · simp [RedisCache.Set, encode, henc, Redis.doSet, Redis.roundTrip, Redis.borrow,
          Redis.release] at h

/-- The result of `BadgerCache.Get`, from the entries. -/
theorem badger_Get_eq (g : Gob V) (b : BadgerCache) (k : String) (s : Badger) :
    BadgerCache.Get g b k s =
      match Badger.lookupIn s.unix s.data (storageKey b.Prefix k) with
      | none => .error .notFound
      | some it =>
        match g.dec it.value with
        | none => .error .decodeErr
        | some m => .ok (m.index (storageKey b.Prefix k)) := by
  simp only [BadgerCache.Get, Badger.lookup, decode]
  cases Badger.lookupIn s.unix s.data (storageKey b.Prefix k) with
  | none => rfl
  | some it => cases hd : g.dec it.value <;> simp [hd]

/-- A successful `BadgerCache.Set` without TTL: the payload and the entries it leaves. -/
theorem badger_Set_ok (g : Gob V) (c : BadgerCache) (k : String) (v : Option V)
    (s : Badger) (h : (BadgerCache.Set g c k v [] s).1 = none) :
    ∃ b, g.enc [(storageKey c.Prefix k, v)] = some b ∧
      (BadgerCache.Set g c k v [] s).2.data =
        Badger.insertKey (storageKey c.Prefix k, ⟨b, 0⟩) s.data ∧
      (BadgerCache.Set g c k v [] s).2.now = s.now := by
  rcases s with ⟨data, now, faults⟩
  cases henc : g.enc [(storageKey c.Prefix k, v)] with
  | none => simp [BadgerCache.Set, encode, henc] at h
  | some b =>
    refine ⟨b, rfl, ?_⟩
    rcases faults with _ | ⟨f, fs⟩
    · simp [BadgerCache.Set, encode, henc, Badger.update]
    · cases f
      · simp [BadgerCache.Set, encode, henc, Badger.update]
      · simp [BadgerCache.Set, encode, henc, Badger.update] at h

/-- The result of `RedisCache.Has`, from the keyspace. -/
theorem redis_Has_fst (c : RedisCache) (k : String) (s : Redis) :
    (RedisCache.Has c k s).1 =
      if s.roundTrip.1 then .error .conn
      else .ok (Redis.lookupIn s.now s.data (storageKey c.Prefix k)).isSome := by
  rcases s with ⟨data, now, faults, active, borrows⟩
  rcases faults with _ | ⟨f, fs⟩
  · simp [RedisCache.Has, Redis.doExists, Redis.roundTrip, Redis.borrow, Redis.lookup]
  · cases f <;>
      simp [RedisCache.Has, Redis.doExists, Redis.roundTrip, Redis.borrow, Redis.lookup]

/-- A successful `RedisCache.Set`, with or without TTL: the keyspace it leaves. -/
theorem redis_Set_data (g : Gob V) (c : RedisCache) (k : String) (v : Option V)
    (expires : List Int) (s : Redis) (h : (RedisCache.Set g c k v expires s).1 = none) :
    ∃ b it, g.enc [(storageKey c.Prefix k, v)] = some b ∧ it.value = b ∧
      (RedisCache.Set g c k v expires s).2.data =
        s.data.filter (fun e => e.1 != storageKey c.Prefix k) ++
          [(storageKey c.Prefix k, it)] := by
  rcases s with ⟨data, now, faults, active, borrows⟩
  cases henc : g.enc [(storageKey c.Prefix k, v)] with
  | none => simp [RedisCache.Set, encode, henc] at h
  | some b =>
    rcases expires with _ | ⟨t, ts⟩
    · refine ⟨b, ⟨b, none⟩, rfl, rfl, ?_⟩
      rcases faults with _ | ⟨f, fs⟩
      · simp [RedisCache.Set, encode, henc, Redis.doSet, Redis.roundTrip, Redis.borrow,
          Redis.release, Redis.put]
      · cases f
        · simp [RedisCache.Set, encode, henc, Redis.doSet, Redis.roundTrip, Redis.borrow,
            Redis.release, Redis.put]
        · simp [RedisCache.Set, encode, henc, Redis.doSet, Redis.roundTrip, Redis.borrow,
            Redis.release] at h
    · refine ⟨b, ⟨b, some (now + t.toNat * 1000)⟩, rfl, rfl, ?_⟩
      by_cases ht : t ≤ 0
      · rcases faults with _ | ⟨f, fs⟩
        · simp [RedisCache.Set, encode, henc, Redis.doSetex, Redis.roundTrip, Redis.borrow,
            Redis.release, ht] at h
        · cases f <;>
            simp [RedisCache.Set, encode, henc, Redis.doSetex, Redis.roundTrip,
              Redis.borrow, Redis.release, ht] at h
      · rcases faults with _ | ⟨f, fs⟩
        · simp [RedisCache.Set, encode, henc, Redis.doSetex, Redis.roundTrip, Redis.borrow,
            Redis.release, Redis.put, ht]
        · cases f
          · simp [RedisCache.Set, encode, henc, Redis.doSetex, Redis.roundTrip,
              Redis.borrow, Redis.release, Redis.put, ht]
          · simp [RedisCache.Set, encode, henc, Redis.doSetex, Redis.roundTrip,
              Redis.borrow, Redis.release, ht] at h

/-- The result of `RedisCache.Forget` and the keyspace it leaves. -/
theorem redis_Forget_spec (c : RedisCache) (k : String) (s : Redis) :
    (RedisCache.Forget c k s).1 = (if s.roundTrip.1 then some .conn else none) ∧
      (RedisCache.Forget c k s).2.data =
        (if s.roundTrip.1 then s.data
          else s.data.filter (fun e => e.1 != storageKey c.Prefix k)) ∧
      (RedisCache.Forget c k s).2.now = s.now ∧
      (RedisCache.Forget c k s).2.faults = s.faults.tail ∧
      (RedisCache.Forget c k s).2.active = s.active ∧
      (RedisCache.Forget c k s).2.borrows = s.borrows + 1 := by
  rcases s with ⟨data, now, faults, active, borrows⟩
  rcases faults with _ | ⟨f, fs⟩
  · simp [RedisCache.Forget, Redis.doDel, Redis.roundTrip, Redis.borrow, Redis.release]
  · cases f <;>
      simp [RedisCache.Forget, Redis.doDel, Redis.roundTrip, Redis.borrow, Redis.release]

/-- A successful `BadgerCache.Set`, with or without TTL: the entries it leaves. -/
theorem badger_Set_data (g : Gob V) (c : BadgerCache) (k : String) (v : Option V)
    (expires : List Int) (s : Badger) (h : (BadgerCache.Set g c k v expires s).1 = none) :
    ∃ b it, g.enc [(storageKey c.Prefix k, v)] = some b ∧ it.value = b ∧
      (BadgerCache.Set g c k v expires s).2.data =
        Badger.insertKey (storageKey c.Prefix k, it) s.data := by
  rcases s with ⟨data, now, faults⟩
  cases henc : g.enc [(storageKey c.Prefix k, v)] with
  | none => simp [BadgerCache.Set, encode, henc] at h
  | some b =>
    rcases expires with _ | ⟨t, ts⟩
    · refine ⟨b, ⟨b, 0⟩, rfl, rfl, ?_⟩
      rcases faults with _ | ⟨f, fs⟩
      · simp [BadgerCache.Set, encode, henc, Badger.update]
      · cases f
        · simp [BadgerCache.Set, encode, henc, Badger.update]
        · simp [BadgerCache.Set, encode, henc, Badger.update] at h
    · refine ⟨b, ⟨b, Badger.expiry ⟨data, now, faults⟩ (wrapInt64 (timeHour * t))⟩,
        rfl, rfl, ?_⟩
      rcases faults with _ | ⟨f, fs⟩
      · simp [BadgerCache.Set, encode, henc, Badger.update]
      · cases f
        · simp [BadgerCache.Set, encode, henc, Badger.update, Badger.expiry]
        · simp [BadgerCache.Set, encode, henc, Badger.update] at h

/-- A `Badger.update` whose transaction is not scheduled to fail. -/
theorem badger_update_ok (s : Badger) (fn : List (String × BItem) → List (String × BItem))
    (h : s.faults.head? ≠ some true) :
    (s.update fn).1 = none ∧ (s.update fn).2.data = fn s.data ∧
      (s.update fn).2.now = s.now ∧ (s.update fn).2.faults = s.faults.tail := by
  rcases s with ⟨data, now, faults⟩
  rcases faults with _ | ⟨f, fs⟩
  · simp [Badger.update]
  · cases f
    · simp [Badger.update]
    · simp at h

/-- A batch delete on a reliable database. -/
theorem deleteKeys_ok (batch : List String) (s : Badger) (h : s.Reliable) :
    ∃ s2, BadgerCache.deleteKeys batch s = (none, s2) ∧
      s2.data = s.data.filter (fun e => !batch.contains e.1) ∧ s2.now = s.now ∧
      s2.Reliable := by
  rcases s with ⟨data, now, faults⟩
  rcases faults with _ | ⟨f, fs⟩
  · exact ⟨_, rfl, rfl, rfl, h⟩
  · have hf : f = false := h f (List.mem_cons_self _ _)
    subst hf
    refine ⟨⟨data.filter (fun e => !batch.contains e.1), now, fs⟩, ?_, rfl, rfl, ?_⟩
    · simp [BadgerCache.deleteKeys, Badger.update]
    · intro f hf
      exact h f (List.mem_cons_of_mem _ hf)

/-- The batching loop on a reliable database, for any batch size: it returns nil and
has deleted the keys of the pending batch and every key still to come. -/
theorem collectLoop_ok (size : Nat) : ∀ (keys batch : List String) (s : Badger),
    s.Reliable →
    (BadgerCache.collectLoop size keys batch batch.length s).1 = .returned none ∧
      (BadgerCache.collectLoop size keys batch batch.length s).2.data =
        s.data.filter (fun e => !(batch ++ keys).contains e.1) ∧
      (BadgerCache.collectLoop size keys batch batch.length s).2.now = s.now
  | [], batch, s, h => by
    unfold BadgerCache.collectLoop
    by_cases hb : batch.length > 0
    · obtain ⟨s2, hdel, hdata, hnow, _⟩ := deleteKeys_ok batch s h
      simp [hb, hdel, hdata, hnow]
    · have : batch = [] := List.length_eq_zero.mp (by omega)
      subst this
      simp
  | key :: more, batch, s, h => by
    unfold BadgerCache.collectLoop
    by_cases hfull : batch.length + 1 = size
    · obtain ⟨s2, hdel, hdata, hnow, hrel⟩ := deleteKeys_ok (batch ++ [key]) s h
      have ih := collectLoop_ok size more [] s2 hrel
      simp only [hfull, if_true, hdel]
      simp only [List.length_nil, List.nil_append] at ih
      refine ⟨ih.1, ?_, ih.2.2.trans hnow⟩
      rw [ih.2.1, hdata, List.filter_filter]
      apply List.filter_congr
      intro e _
      simp only [List.contains_eq_any_beq, List.any_append, List.any_cons, List.any_nil,
        Bool.or_false, Bool.not_or]
      ac_rfl
    · have ih := collectLoop_ok size more (batch ++ [key]) s h
      simp only [List.length_append, List.length_singleton] at ih
      simp only [hfull, if_false]
      refine ⟨ih.1, ?_, ih.2.2⟩
      rw [ih.2.1]
      simp

/-- A SCAN round trip on a reliable server. -/
theorem redis_doScan_ok (s : Redis) (h : s.Reliable) (cursor : Nat) (pat : String) :
    ∃ s1, s.doScan cursor pat =
        (.ok (if cursor + Redis.scanCount < s.data.length then cursor + Redis.scanCount
              else 0,
            (((s.data.drop cursor).take Redis.scanCount).filter
              (fun e => Redis.liveAt s.now e && stringmatch pat e.1)).map (·.1)), s1) ∧
      s1.data = s.data ∧ s1.now = s.now ∧ s1.Reliable := by
  rcases s with ⟨data, now, faults, active, borrows⟩
  rcases faults with _ | ⟨f, fs⟩
  · exact ⟨_, rfl, rfl, rfl, h⟩
  · have hf : f = false := h f (List.mem_cons_self _ _)
    subst hf
    exact ⟨⟨data, now, fs, active, borrows⟩, rfl, rfl, rfl,
      fun f hf => h f (List.mem_cons_of_mem _ hf)⟩

/-- A DEL round trip on a reliable server. -/
theorem redis_doDel_ok (s : Redis) (h : s.Reliable) (key : String) :
    ∃ s1, s.doDel key = (.ok (), s1) ∧
      s1.data = s.data.filter (fun e => e.1 != key) ∧ s1.now = s.now ∧ s1.Reliable := by
  rcases s with ⟨data, now, faults, active, borrows⟩
  rcases faults with _ | ⟨f, fs⟩
  · exact ⟨_, rfl, rfl, rfl, h⟩
  · have hf : f = false := h f (List.mem_cons_self _ _)
    subst hf
    exact ⟨⟨data.filter (fun e => e.1 != key), now, fs, active, borrows⟩, rfl, rfl, rfl,
      fun f hf => h f (List.mem_cons_of_mem _ hf)⟩

/-- `RedisCache.Forget` on a reliable server. -/
theorem redis_Forget_ok (c : RedisCache) (k : String) (s : Redis) (h : s.Reliable) :
    (RedisCache.Forget c k s).1 = none ∧
      (RedisCache.Forget c k s).2.data =
        s.data.filter (fun e => e.1 != storageKey c.Prefix k) ∧
      (RedisCache.Forget c k s).2.now = s.now ∧ (RedisCache.Forget c k s).2.Reliable := by
  rcases s with ⟨data, now, faults, active, borrows⟩
  rcases faults with _ | ⟨f, fs⟩
  · exact ⟨rfl, rfl, rfl, h⟩
  · have hf : f = false := h f (List.mem_cons_self _ _)
    subst hf
    exact ⟨rfl, rfl, rfl, fun f hf => h f (List.mem_cons_of_mem _ hf)⟩

/-- The scan loop of `getKeys` on a reliable server, with fuel for every page: it ends
with a nil error and has collected the live matching keys from the cursor on. -/
theorem getKeysLoop_ok (pat : String) : ∀ (fuel cursor : Nat) (keys : List String)
    (s : Redis), s.Reliable → 0 < fuel → s.data.length ≤ cursor + Redis.scanCount * fuel →
    ∃ s1, RedisCache.getKeysLoop pat fuel cursor keys s =
        some ((keys ++ ((s.data.drop cursor).filter
          (fun e => Redis.liveAt s.now e && stringmatch (pat ++ "*") e.1)).map (·.1),
          none), s1) ∧
      s1.data = s.data ∧ s1.now = s.now ∧ s1.Reliable
  | 0, _, _, _, _, h0, _ => absurd h0 (by omega)
  | fuel + 1, cursor, keys, s, h, _, hlen => by
    obtain ⟨s1, hscan, hd1, hn1, hr1⟩ := redis_doScan_ok s h cursor (pat ++ "*")
    have hsc : Redis.scanCount = 10 := rfl
    unfold RedisCache.getKeysLoop
    rw [hscan]
    by_cases hc : cursor + Redis.scanCount < s.data.length
    · have hne : cursor + Redis.scanCount ≠ 0 := by omega
      obtain ⟨s2, hrec, hd2, hn2, hr2⟩ := getKeysLoop_ok pat fuel (cursor + Redis.scanCount)
        (keys ++ (((s.data.drop cursor).take Redis.scanCount).filter
          (fun e => Redis.liveAt s.now e && stringmatch (pat ++ "*") e.1)).map (·.1))
        s1 hr1 (by rw [hsc] at hc hlen; omega) (by rw [hd1]; rw [hsc] at hlen ⊢; omega)
      refine ⟨s2, ?_, hd2.trans hd1, hn2.trans hn1, hr2⟩
      simp only [hc, if_true, hne, if_false]
      rw [hrec, hd1, hn1, List.append_assoc, ← List.map_append, ← List.filter_append]
      have hsplit : List.take Redis.scanCount (List.drop cursor s.data) ++
          List.drop (cursor + Redis.scanCount) s.data = List.drop cursor s.data := by
        rw [← List.drop_drop]
        exact List.take_append_drop _ _
      rw [hsplit]
    · refine ⟨s1, ?_, hd1, hn1, hr1⟩
      simp only [hc, if_false, if_true]
      rw [List.take_of_length_le (by rw [List.length_drop]; omega)]

/-- The delete loop of `Empty` and `EmptyByMatch` on a reliable server: it deletes each
key found and, through `Forget`, each key found with the namespace in front. -/
theorem deleteMatches_ok (c : RedisCache) : ∀ (found : List String) (s : Redis),
    s.Reliable →
    ∃ s1, RedisCache.deleteMatches c found s = (none, s1) ∧
      s1.data = s.data.filter (fun e =>
        !found.contains e.1 && !(found.map (storageKey c.Prefix)).contains e.1) ∧
      s1.now = s.now ∧ s1.Reliable
  | [], s, h => ⟨s, rfl, by simp, rfl, h⟩
  | x :: xs, s, h => by
    obtain ⟨_, hfd, hfn, hfr⟩ := redis_Forget_ok c x s h
    obtain ⟨s2, hdel, hd2, hn2, hr2⟩ := redis_doDel_ok (RedisCache.Forget c x s).2 hfr x
    obtain ⟨s3, hrec, hd3, hn3, hr3⟩ := deleteMatches_ok c xs s2 hr2
    refine ⟨s3, ?_, ?_, by rw [hn3, hn2, hfn], hr3⟩
    · unfold RedisCache.deleteMatches
      simp only [hdel]
      exact hrec
    · rw [hd3, hd2, hfd, List.filter_filter, List.filter_filter]
      apply List.filter_congr
      intro e _
      simp only [List.contains_eq_any_beq, List.any_cons, List.map_cons, Bool.not_or, bne]
      have e1 : (e.1 == x) = (x == e.1) := BEq.comm
      have e2 : (e.1 == storageKey c.Prefix x) = (storageKey c.Prefix x == e.1) := BEq.comm
      rw [e1, e2]
      ac_rfl

/-- `RedisCache.EmptyByMatch` on a reliable server, with fuel for every page of the
scan: what it returns and the keyspace it leaves. -/
theorem redis_EmptyByMatch_ok (c : RedisCache) (fuel : Nat) (p : String) (s : Redis)
    (h : s.Reliable) (hfuel : s.data.length < fuel) :
    ∃ s1, RedisCache.EmptyByMatch c fuel p s = some (none, s1) ∧
      s1.data = s.data.filter (fun e =>
        !((s.data.filter (fun e => Redis.liveAt s.now e &&
            stringmatch (storageKey c.Prefix p ++ "*") e.1)).map (·.1)).contains e.1 &&
        !(((s.data.filter (fun e => Redis.liveAt s.now e &&
            stringmatch (storageKey c.Prefix p ++ "*") e.1)).map (·.1)).map
              (storageKey c.Prefix)).contains e.1) ∧
      s1.now = s.now := by
  have hsc : Redis.scanCount = 10 := rfl
  obtain ⟨s1, hkeys, hd1, hn1, hr1⟩ := getKeysLoop_ok (storageKey c.Prefix p) fuel 0 []
    s.borrow.borrow h (by omega)
    (by show s.data.length ≤ 0 + Redis.scanCount * fuel; rw [hsc]; omega)
  obtain ⟨s2, hdel, hd2, hn2, _⟩ := deleteMatches_ok c
    ((s.data.filter (fun e => Redis.liveAt s.now e &&
      stringmatch (storageKey c.Prefix p ++ "*") e.1)).map (·.1)) s1.release hr1
  refine ⟨s2.release, ?_, ?_, ?_⟩
  · unfold RedisCache.EmptyByMatch RedisCache.getKeys
    simp only [hkeys, List.drop_zero, List.nil_append]
    show some ((RedisCache.deleteMatches c _ s1.release).1,
      (RedisCache.deleteMatches c _ s1.release).2.release) = _
    rw [show (s.borrow.borrow).data = s.data from rfl,
      show (s.borrow.borrow).now = s.now from rfl, hdel]
  · show s2.data = _
    rw [hd2]
    show s1.data.filter _ = _
    rw [hd1]
    rfl
  · show s2.now = _
    rw [hn2]
    exact hn1

/-- An update that only inserts at the place of a key, or only filters, keeps the
database in key order. -/
theorem badger_update_sorted (s : Badger)
    (fn : List (String × BItem) → List (String × BItem)) (hs : s.Sorted)
    (hfn : (fn s.data).Pairwise (fun a b => keyLt a.1.data b.1.data = true)) :
    (s.update fn).2.Sorted := by
  rcases s with ⟨data, now, faults⟩
  rcases faults with _ | ⟨f, fs⟩
  · exact hfn
  · cases f
    · exact hfn
    · exact hs

/-- `Set` keeps the database in key order. -/
theorem badger_Set_sorted (g : Gob V) (c : BadgerCache) (k : String) (v : Option V)
    (expires : List Int) (s : Badger) (hs : s.Sorted) :
    (BadgerCache.Set g c k v expires s).2.Sorted := by
  unfold BadgerCache.Set
  cases henc : encode g [(storageKey c.Prefix k, v)] with
  | error err =>
    simp only [henc]
    exact hs
  | ok encoded =>
    rcases expires with _ | ⟨t, ts⟩
    · simp only [henc]
      exact badger_update_sorted s _ hs (insertKey_sorted _ _ hs)
    · simp only [henc]
      exact badger_update_sorted s _ hs (insertKey_sorted _ _ hs)

/-- `Forget` keeps the database in key order. -/
theorem badger_Forget_sorted (c : BadgerCache) (k : String) (s : Badger) (hs : s.Sorted) :
    (BadgerCache.Forget c k s).2.Sorted :=
  badger_update_sorted s _ hs (List.Pairwise.sublist (List.filter_sublist _) hs)

/-- The batching loop keeps the database in key order, whether or not a transaction
fails. -/
theorem collectLoop_sorted (size : Nat) : ∀ (keys batch : List String) (n : Nat)
    (s : Badger), s.Sorted → (BadgerCache.collectLoop size keys batch n s).2.Sorted
  | [], batch, n, s, hs => by
    have hd : (BadgerCache.deleteKeys batch s).2.Sorted :=
      badger_update_sorted s _ hs (List.Pairwise.sublist (List.filter_sublist _) hs)
    unfold BadgerCache.collectLoop
    split
    · rcases hdel : BadgerCache.deleteKeys batch s with ⟨_ | err, s2⟩
      · rw [hdel] at hd; exact hd
      · rw [hdel] at hd; exact hd
    · exact hs
  | key :: more, batch, n, s, hs => by
    have hd : (BadgerCache.deleteKeys (batch ++ [key]) s).2.Sorted :=
      badger_update_sorted s _ hs (List.Pairwise.sublist (List.filter_sublist _) hs)
    unfold BadgerCache.collectLoop
    simp only
    split
    · rcases hdel : BadgerCache.deleteKeys (batch ++ [key]) s with ⟨_ | err, s2⟩
      · rw [hdel] at hd
        exact collectLoop_sorted size more [] 0 s2 hd
      · rw [hdel] at hd; exact hd
    · exact collectLoop_sorted size more _ _ s hs

/-- `EmptyByMatch` keeps the database in key order. -/
theorem badger_EmptyByMatch_sorted (c : BadgerCache) (p : String) (s : Badger)
    (hs : s.Sorted) : (BadgerCache.EmptyByMatch c p s).2.Sorted :=
  collectLoop_sorted _ _ _ _ s hs

end Operations

/-! ## Round trip -/

/-- C1: on both backends, for every namespace, key, value the codec round-trips and
prior state, a `Set` without TTL that succeeds, followed by a `Get` of the same key
(whose command reaches the server), returns the value and no error. -/
theorem set_get_roundtrip {V : Type} (g : Gob V) (n k : String) (v : Option V)
    (hcodec : ∀ b, g.enc [(storageKey n k, v)] = some b →
      g.dec b = some [(storageKey n k, v)]) :
    (∀ s : Redis, (RedisCache.Set g ⟨n⟩ k v [] s).1 = none →
      (RedisCache.Set g ⟨n⟩ k v [] s).2.roundTrip.1 = false →
      (RedisCache.Get g ⟨n⟩ k (RedisCache.Set g ⟨n⟩ k v [] s).2).1 = .ok v) ∧
    (∀ s : Badger, (BadgerCache.Set g ⟨n⟩ k v [] s).1 = none →
      BadgerCache.Get g ⟨n⟩ k (BadgerCache.Set g ⟨n⟩ k v [] s).2 = .ok v) := by
  constructor
  · intro s hset hget
    obtain ⟨b, henc, hdata, hnow⟩ := redis_Set_ok g ⟨n⟩ k v s hset
    rw [redis_Get_fst, hget, hdata, hnow]
    simp only [Bool.false_eq_true, if_false]
    rw [redis_lookupIn_put_self _ _ _ _ (by simp [Redis.liveAt])]
    simp [hcodec b henc, Entry.index]
  · intro s hset
    obtain ⟨b, henc, hdata, hnow⟩ := badger_Set_ok g ⟨n⟩ k v s hset
    rw [badger_Get_eq, hdata]
    have := badger_lookupIn_insertKey_self
      (BadgerCache.Set g ⟨n⟩ k v [] s).2.unix s.data (storageKey n k, ⟨b, 0⟩)
      (by simp [Badger.liveAt])
    simp only at this
    rw [this]
    simp [hcodec b henc, Entry.index]

/-- C1, at a concrete codec, key and value, on a store that already holds the key. -/
theorem set_get_roundtrip_witness :
    (RedisCache.Get demoGob ⟨"app"⟩ "k"
        (RedisCache.Set demoGob ⟨"app"⟩ "k" (some 7) []
          ⟨[("app:k", ⟨[1], none⟩)], 0, [], 0, 0⟩).2).1 = .ok (some 7) ∧
      BadgerCache.Get demoGob ⟨"app"⟩ "k"
        (BadgerCache.Set demoGob ⟨"app"⟩ "k" (some 7) []
          ⟨[("app:k", ⟨[1], 0⟩)], 0, []⟩).2 = .ok (some 7) :=
  have h := set_get_roundtrip demoGob "app" "k" (some 7)
    (fun b hb => by cases hb; decide)
  ⟨h.1 ⟨[("app:k", ⟨[1], none⟩)], 0, [], 0, 0⟩ (by decide) (by decide),
   h.2 ⟨[("app:k", ⟨[1], 0⟩)], 0, []⟩ (by decide)⟩

/-! ## Key and payload format -/

/-- C2: on each backend a successful `Set` (with or without TTL) leaves under the storage
key `n ++ ":" ++ k` the payload `encode` gives for the single-key mapping of that storage
key to the value, and leaves the entries of every other storage key as they were; the
payload is the same on both backends.  `Has`, `Get` and `Forget` read or delete that
same storage key. -/
theorem key_and_payload_format {V : Type} (g : Gob V) (n k : String) (v : Option V) :
    (∀ (s : Redis) (expires : List Int),
      (RedisCache.Set g ⟨n⟩ k v expires s).1 = none →
      ((RedisCache.Set g ⟨n⟩ k v expires s).2.data.find?
          (fun e => e.1 == n ++ ":" ++ k)).map (fun e => e.2.value)
        = g.enc [(n ++ ":" ++ k, v)] ∧
      (RedisCache.Set g ⟨n⟩ k v expires s).2.data.filter (fun e => e.1 != n ++ ":" ++ k)
        = s.data.filter (fun e => e.1 != n ++ ":" ++ k)) ∧
    (∀ (s : Badger) (expires : List Int),
      (BadgerCache.Set g ⟨n⟩ k v expires s).1 = none →
      ((BadgerCache.Set g ⟨n⟩ k v expires s).2.data.find?
          (fun e => e.1 == n ++ ":" ++ k)).map (fun e => e.2.value)
        = g.enc [(n ++ ":" ++ k, v)] ∧
      (BadgerCache.Set g ⟨n⟩ k v expires s).2.data.filter (fun e => e.1 != n ++ ":" ++ k)
        = s.data.filter (fun e => e.1 != n ++ ":" ++ k)) ∧
    (∀ s : Redis, (RedisCache.Has ⟨n⟩ k s).1 =
      if s.roundTrip.1 then .error .conn else .ok (s.lookup (n ++ ":" ++ k)).isSome) ∧
    (∀ s : Redis, (RedisCache.Get g ⟨n⟩ k s).1 =
      if s.roundTrip.1 then .error .conn
      else match s.lookup (n ++ ":" ++ k) with
        | none => .error .notFound
        | some it =>
          match g.dec it.value with
          | none => .error .decodeErr
          | some m => .ok (m.index (n ++ ":" ++ k))) ∧
    (∀ s : Redis, s.roundTrip.1 = false →
      (RedisCache.Forget ⟨n⟩ k s).2.data = s.data.filter (fun e => e.1 != n ++ ":" ++ k)) ∧
    (∀ s : Badger, BadgerCache.Get g ⟨n⟩ k s =
      match s.lookup (n ++ ":" ++ k) with
      | none => .error .notFound
      | some it =>
        match g.dec it.value with
        | none => .error .decodeErr
        | some m => .ok (m.index (n ++ ":" ++ k))) ∧
    (∀ s : Badger, BadgerCache.Has g ⟨n⟩ k s =
      match s.lookup (n ++ ":" ++ k) with
      | none => .error .notFound
      | some it =>
        match g.dec it.value with
        | none => .error .decodeErr
        | some _ => .ok true) ∧
    (∀ s : Badger, (BadgerCache.Forget ⟨n⟩ k s).1 = none →
      (BadgerCache.Forget ⟨n⟩ k s).2.data = s.data.filter (fun e => e.1 != n ++ ":" ++ k)) := by
  refine ⟨?_, ?_, ?_, ?_, ?_, ?_, ?_, ?_⟩
  · intro s expires h
    obtain ⟨b, it, henc, hval, hdata⟩ := redis_Set_data g ⟨n⟩ k v expires s h
    simp only [storageKey] at henc hdata
    rw [hdata, henc]
    constructor
    · have := find_put_self s.data (n ++ ":" ++ k) it (fun _ => true) rfl
      simp only [List.filter_true] at this
      rw [this]
      simp [hval]
    · simp [List.filter_append, List.filter_filter]
  · intro s expires h
    obtain ⟨b, it, henc, hval, hdata⟩ := badger_Set_data g ⟨n⟩ k v expires s h
    simp only [storageKey] at henc hdata
    rw [hdata, henc]
    constructor
    · have := find_insertKey_self (n ++ ":" ++ k, it) s.data (fun _ => true) rfl
      simp only [List.filter_true] at this
      rw [this]
      simp [hval]
    · exact filter_insertKey_ne (n ++ ":" ++ k, it) s.data
  · intro s
    exact redis_Has_fst ⟨n⟩ k s
  · intro s
    exact redis_Get_fst g ⟨n⟩ k s
  · intro s hs
    have := (redis_Forget_spec ⟨n⟩ k s).2.1
    simpa [hs, storageKey] using this
  · intro s
    exact badger_Get_eq g ⟨n⟩ k s
  · intro s
    unfold BadgerCache.Has
    rw [badger_Get_eq]
    simp only [storageKey, Badger.lookup]
    cases Badger.lookupIn s.unix s.data (n ++ ":" ++ k) with
    | none => rfl
    | some it => cases hd : g.dec it.value <;> simp [hd]
  · intro s h
    rcases s with ⟨data, now, faults⟩
    rcases faults with _ | ⟨f, fs⟩
    · simp [BadgerCache.Forget, Badger.update, storageKey]
    · cases f
      · simp [BadgerCache.Forget, Badger.update, storageKey]
      · simp [BadgerCache.Forget, Badger.update] at h

/-- C2, at a concrete codec, key and value: the payload found under `app:k` on both
backends, next to an entry of another key. -/
theorem key_and_payload_format_witness :
    ((RedisCache.Set demoGob ⟨"app"⟩ "k" (some 7) [30]
        ⟨[("app:j", ⟨[1], none⟩)], 0, [], 0, 0⟩).2.data.find?
          (fun e => e.1 == "app" ++ ":" ++ "k")).map (fun e => e.2.value)
        = demoGob.enc [("app" ++ ":" ++ "k", some 7)] ∧
      ((BadgerCache.Set demoGob ⟨"app"⟩ "k" (some 7) [30]
        ⟨[("app:j", ⟨[1], 0⟩)], 0, []⟩).2.data.find?
          (fun e => e.1 == "app" ++ ":" ++ "k")).map (fun e => e.2.value)
        = demoGob.enc [("app" ++ ":" ++ "k", some 7)] :=
  have h := key_and_payload_format demoGob "app" "k" (some 7)
  ⟨(h.1 ⟨[("app:j", ⟨[1], none⟩)], 0, [], 0, 0⟩ [30] (by decide)).1,
   (h.2.1 ⟨[("app:j", ⟨[1], 0⟩)], 0, []⟩ [30] (by decide)).1⟩

/-! ## Eviction by prefix, badger -/

/-- C3: on a database in key order whose delete transactions all succeed,
`BadgerCache.EmptyByMatch p` returns nil and leaves exactly the entries of the prior
store whose storage key does not begin with `n ++ ":" ++ p`, each unchanged, however
many keys match. -/
theorem badger_EmptyByMatch_exact (n p : String) (s : Badger) (hs : s.Sorted)
    (hf : s.Reliable) :
    (BadgerCache.EmptyByMatch ⟨n⟩ p s).1 = .returned none ∧
      (BadgerCache.EmptyByMatch ⟨n⟩ p s).2.live =
        s.live.filter (fun e => !hasPrefix (n ++ ":" ++ p) e.1) ∧
      (BadgerCache.EmptyByMatch ⟨n⟩ p s).2.data =
        s.data.filter (fun e => !(Badger.liveAt s.unix e && hasPrefix (n ++ ":" ++ p) e.1)) := by
  have hloop := collectLoop_ok BadgerCache.collectSize
    (s.iterKeys (storageKey n p)) [] s hf
  simp only [List.length_nil, List.nil_append] at hloop
  have hdata : (BadgerCache.EmptyByMatch ⟨n⟩ p s).2.data =
      s.data.filter
        (fun e => !(Badger.liveAt s.unix e && hasPrefix (n ++ ":" ++ p) e.1)) := by
    show (BadgerCache.collectLoop BadgerCache.collectSize
      (s.iterKeys (storageKey n p)) [] 0 s).2.data = _
    rw [hloop.2.1, iterKeys_eq s _ hs]
    apply List.filter_congr
    intro e he
    congr 1
    rw [Bool.eq_iff_iff]
    simp only [List.contains_iff_exists_mem_beq, List.mem_map, List.mem_filter,
      Badger.live, beq_iff_eq, Bool.and_eq_true, storageKey]
    constructor
    · rintro ⟨k, ⟨e2, ⟨⟨he2, hl⟩, hp⟩, rfl⟩, hk⟩
      have : e2 = e := eq_of_key_eq s.data hs e2 e he2 he hk.symm
      subst this
      exact ⟨hl, hp⟩
    · rintro ⟨hl, hp⟩
      exact ⟨e.1, ⟨e, ⟨⟨he, hl⟩, hp⟩, rfl⟩, rfl⟩
  refine ⟨hloop.1, ?_, hdata⟩
  have hnow : (BadgerCache.EmptyByMatch ⟨n⟩ p s).2.now = s.now := hloop.2.2
  unfold Badger.live
  rw [hdata, List.filter_filter, List.filter_filter]
  have hu : (BadgerCache.EmptyByMatch ⟨n⟩ p s).2.unix = s.unix := by
    unfold Badger.unix
    rw [hnow]
  rw [hu]
  apply List.filter_congr
  intro e _
  cases Badger.liveAt s.unix e <;> simp

/-- C3, on the database holding `app:order:1`, `app:user:1` and `app:user:2`:
`EmptyByMatch("user:")` leaves `app:order:1`. -/
theorem badger_EmptyByMatch_exact_witness :
    demoBadger.Sorted ∧ demoBadger.Reliable ∧
      (BadgerCache.EmptyByMatch ⟨"app"⟩ "user:" demoBadger).2.live =
        demoBadger.live.filter (fun e => !hasPrefix ("app" ++ ":" ++ "user:") e.1) ∧
      demoBadger.live.filter (fun e => !hasPrefix ("app" ++ ":" ++ "user:") e.1) =
        [("app:order:1", ⟨[1], 0⟩)] :=
  have hs : demoBadger.Sorted := by
    unfold Badger.Sorted
    decide
  have hf : demoBadger.Reliable := by
    intro f hf
    cases hf
  ⟨hs, hf, (badger_EmptyByMatch_exact "app" "user:" demoBadger hs hf).2.1, by decide⟩

/-! ## Eviction by prefix, redis -/

/-- C4 fails as stated.  With the pattern `?` the key `app:ab`, which does not begin
with `app:?`, is deleted, because the server reads the pattern as a glob.  With the
pattern `user:` the key `app:app:user:1` is deleted too, because the loop also calls
`Forget` on the storage key found. -/
theorem redis_EmptyByMatch_not_literal :
    RedisCache.EmptyByMatch ⟨"app"⟩ 2 "?" demoGlob = some (none, ⟨[], 0, [], 0, 3⟩) ∧
      demoGlob.live.filter (fun e => !hasPrefix ("app" ++ ":" ++ "?") e.1) =
        [("app:ab", ⟨[1], none⟩)] ∧
      RedisCache.EmptyByMatch ⟨"app"⟩ 4 "user:" demoNested =
        some (none, ⟨[("app:order:1", ⟨[3], none⟩)], 0, [], 0, 3⟩) ∧
      demoNested.live.filter (fun e => !hasPrefix ("app" ++ ":" ++ "user:") e.1) =
        [("app:app:user:1", ⟨[2], none⟩), ("app:order:1", ⟨[3], none⟩)] := by
  decide

/-- C4, amended: for a namespace and a pattern without glob metacharacters, on a
reliable server and with fuel for every page of the scan, `RedisCache.EmptyByMatch p`
returns nil, leaves no live entry whose storage key begins with `n ++ ":" ++ p`, and
among the entries whose storage key does not begin with `n ++ ":" ++ (n ++ ":" ++ p)`
it removes those that begin with `n ++ ":" ++ p` and no other. -/
theorem redis_EmptyByMatch_plain (n p : String) (fuel : Nat) (s : Redis)
    (hn : globFree n = true) (hp : globFree p = true) (hf : s.Reliable)
    (hfuel : s.data.length < fuel) :
    ∃ s1, RedisCache.EmptyByMatch ⟨n⟩ fuel p s = some (none, s1) ∧
      (∀ e ∈ s1.live, hasPrefix (n ++ ":" ++ p) e.1 = false) ∧
      s1.live.filter (fun e => !hasPrefix (n ++ ":" ++ (n ++ ":" ++ p)) e.1) =
        s.live.filter (fun e => !hasPrefix (n ++ ":" ++ p) e.1 &&
          !hasPrefix (n ++ ":" ++ (n ++ ":" ++ p)) e.1) := by
  obtain ⟨s1, hres, hdata, hnow⟩ := redis_EmptyByMatch_ok ⟨n⟩ fuel p s hf hfuel
  simp only [show ∀ k, stringmatch (storageKey (RedisCache.mk n).Prefix p ++ "*") k =
    hasPrefix (n ++ ":" ++ p) k from fun k => stringmatch_storageKey n p k hn hp] at hdata
  have hfound : ∀ e ∈ s.data, Redis.liveAt s.now e = true →
      ((s.data.filter (fun e => Redis.liveAt s.now e &&
        hasPrefix (n ++ ":" ++ p) e.1)).map (·.1)).contains e.1 =
      hasPrefix (n ++ ":" ++ p) e.1 := by
    intro e he hl
    rw [Bool.eq_iff_iff]
    simp only [List.contains_iff_exists_mem_beq, List.mem_map, List.mem_filter,
      Bool.and_eq_true, beq_iff_eq]
    constructor
    · rintro ⟨k, ⟨e2, ⟨_, _, hp2⟩, rfl⟩, hk⟩
      rw [hk]
      exact hp2
    · intro hpe
      exact ⟨e.1, ⟨e, ⟨he, hl, hpe⟩, rfl⟩, rfl⟩
  have hnested : ∀ e : String × RItem,
      (((s.data.filter (fun e => Redis.liveAt s.now e &&
        hasPrefix (n ++ ":" ++ p) e.1)).map (·.1)).map
          (storageKey n)).contains e.1 = true →
      hasPrefix (n ++ ":" ++ (n ++ ":" ++ p)) e.1 = true := by
    intro e
    simp only [List.contains_iff_exists_mem_beq, List.mem_map, List.mem_filter,
      Bool.and_eq_true, beq_iff_eq]
    rintro ⟨k, ⟨x, ⟨e2, ⟨_, _, hp2⟩, rfl⟩, rfl⟩, hk⟩
    rw [hk]
    exact hasPrefix_nested n _ _ hp2
  refine ⟨s1, hres, ?_, ?_⟩
  · intro e he
    unfold Redis.live at he
    rw [hdata, hnow] at he
    obtain ⟨he1, hl⟩ := List.mem_filter.mp he
    obtain ⟨he2, hD⟩ := List.mem_filter.mp he1
    rw [hfound e he2 hl] at hD
    cases hh : hasPrefix (n ++ ":" ++ p) e.1
    · rfl
    · rw [hh] at hD
      simp at hD
  · unfold Redis.live
    rw [hdata, hnow, List.filter_filter, List.filter_filter, List.filter_filter]
    apply List.filter_congr
    intro e he
    cases hl : Redis.liveAt s.now e
    · simp
    · rw [hfound e he hl]
      cases hd : hasPrefix (n ++ ":" ++ (n ++ ":" ++ p)) e.1
      · have hb : (((s.data.filter (fun e => Redis.liveAt s.now e &&
            hasPrefix (n ++ ":" ++ p) e.1)).map (·.1)).map
              (storageKey n)).contains e.1 = false := by
          cases hc : (((s.data.filter (fun e => Redis.liveAt s.now e &&
            hasPrefix (n ++ ":" ++ p) e.1)).map (·.1)).map
              (storageKey n)).contains e.1
          · rfl
          · rw [hnested e hc] at hd
            exact absurd hd (by simp)
        rw [hb]
        simp
      · simp

/-- C4 amended, on the keyspace holding `app:user:1`, `app:user:2` and `app:order:1`. -/
theorem redis_EmptyByMatch_plain_witness :
    ∃ s1, RedisCache.EmptyByMatch ⟨"app"⟩ 4 "user:" demoRedis = some (none, s1) ∧
      (∀ e ∈ s1.live, hasPrefix ("app" ++ ":" ++ "user:") e.1 = false) ∧
      s1.live.filter (fun e => !hasPrefix ("app" ++ ":" ++ ("app" ++ ":" ++ "user:")) e.1) =
        demoRedis.live.filter (fun e => !hasPrefix ("app" ++ ":" ++ "user:") e.1 &&
          !hasPrefix ("app" ++ ":" ++ ("app" ++ ":" ++ "user:")) e.1) :=
  redis_EmptyByMatch_plain "app" "user:" 4 demoRedis (by decide) (by decide)
    (by intro f hf; cases hf) (by decide)

/-! ## Time to live -/

/-- C5 fails on the code: `BadgerCache.Set` with a TTL of 1 stores an expiry 3600
seconds ahead, and a `Get` two seconds later still returns the value; `RedisCache.Set`
with the same TTL has let the entry go by then. -/
theorem badger_ttl_in_hours :
    (BadgerCache.Set demoGob ⟨"app"⟩ "k" (some 7) [1] ⟨[], 0, []⟩).2.data.map
        (fun e => e.2.expiresAt) = [3600] ∧
      BadgerCache.Get demoGob ⟨"app"⟩ "k"
        ((BadgerCache.Set demoGob ⟨"app"⟩ "k" (some 7) [1] ⟨[], 0, []⟩).2.tick
          (2 * 1000000000)) = .ok (some 7) ∧
      (RedisCache.Get demoGob ⟨"app"⟩ "k"
        ((RedisCache.Set demoGob ⟨"app"⟩ "k" (some 7) [1] ⟨[], 0, [], 0, 0⟩).2.tick
          2001)).1 = .error .notFound := by
  decide

/-! ## Has and Get -/

/-- C6 fails as stated: the database holds a live entry under `app:k`, its bytes do not
decode, and `BadgerCache.Has` answers false with the decoding error. -/
theorem badger_Has_decodes :
    demoCorrupt.lookup ("app" ++ ":" ++ "k") = some ⟨[5], 0⟩ ∧
      BadgerCache.Has demoGob ⟨"app"⟩ "k" demoCorrupt = .error .decodeErr := by
  decide

/-- C6, amended: `RedisCache.Has`, when its command reaches the server, returns true
exactly when a live entry is stored under `n ++ ":" ++ k`, whatever its payload;
`BadgerCache.Has` returns true exactly when a live entry is stored there and its
payload decodes. -/
theorem has_iff_entry {V : Type} (g : Gob V) (n k : String) :
    (∀ s : Redis, s.roundTrip.1 = false →
      (RedisCache.Has ⟨n⟩ k s).1 = .ok (s.lookup (n ++ ":" ++ k)).isSome) ∧
    (∀ s : Badger, BadgerCache.Has g ⟨n⟩ k s = .ok true ↔
      ∃ it, s.lookup (n ++ ":" ++ k) = some it ∧ (g.dec it.value).isSome = true) := by
  constructor
  · intro s hs
    rw [redis_Has_fst, hs]
    rfl
  · intro s
    unfold BadgerCache.Has
    rw [badger_Get_eq]
    simp only [storageKey, Badger.lookup]
    cases Badger.lookupIn s.unix s.data (n ++ ":" ++ k) with
    | none => simp
    | some it => cases hd : g.dec it.value <;> simp [hd]

/-- C6 amended, on a keyspace whose entry under `app:k` holds bytes that do not
decode. -/
theorem has_iff_entry_witness :
    (RedisCache.Has ⟨"app"⟩ "k" ⟨[("app:k", ⟨[5], none⟩)], 0, [], 0, 0⟩).1 =
      .ok ((⟨[("app:k", ⟨[5], none⟩)], 0, [], 0, 0⟩ : Redis).lookup
        ("app" ++ ":" ++ "k")).isSome :=
  (has_iff_entry demoGob "app" "k").1 ⟨[("app:k", ⟨[5], none⟩)], 0, [], 0, 0⟩ (by decide)

/-- C7: on both backends `Get` of a key with no live entry under `n ++ ":" ++ k`
returns a nil value with an error, never a success; the error is the not-found error
(on redis when the command reaches the server). -/
theorem get_absent_fails {V : Type} (g : Gob V) (n k : String) :
    (∀ s : Redis, s.lookup (n ++ ":" ++ k) = none →
      (∃ err, (RedisCache.Get g ⟨n⟩ k s).1 = .error err) ∧
      (s.roundTrip.1 = false → (RedisCache.Get g ⟨n⟩ k s).1 = .error .notFound)) ∧
    (∀ s : Badger, s.lookup (n ++ ":" ++ k) = none →
      BadgerCache.Get g ⟨n⟩ k s = .error .notFound) := by
  constructor
  · intro s hs
    have hl : Redis.lookupIn s.now s.data (storageKey n k) = none := hs
    rw [redis_Get_fst]
    simp only [hl]
    constructor
    · cases s.roundTrip.1
      · exact ⟨.notFound, by simp⟩
      · exact ⟨.conn, by simp⟩
    · intro h
      simp [h]
  · intro s hs
    have hl : Badger.lookupIn s.unix s.data (storageKey n k) = none := hs
    rw [badger_Get_eq]
    simp only [hl]

/-- C7, on stores that hold other keys only. -/
theorem get_absent_fails_witness :
    (RedisCache.Get demoGob ⟨"app"⟩ "k" demoRedis).1 = .error .notFound ∧
      BadgerCache.Get demoGob ⟨"app"⟩ "k" demoBadger = .error .notFound :=
  have h := get_absent_fails demoGob "app" "k"
  ⟨(h.1 demoRedis (by decide)).2 (by decide), h.2 demoBadger (by decide)⟩

/-- C8 fails as stated: the payload stored under `app:k` decodes to the mapping of
`other:k`, which has no entry for `app:k`, and `Get` returns a nil value with a nil
error on both backends. -/
theorem get_missing_outer_key :
    demoGob.dec (demoEnc [("other:k", some 7)]) = some [("other:k", some 7)] ∧
      (RedisCache.Get demoGob ⟨"app"⟩ "k" demoForeignRedis).1 = .ok none ∧
      BadgerCache.Get demoGob ⟨"app"⟩ "k" demoForeignBadger = .ok none := by
  decide

/-- C8, amended: when the payload stored under `n ++ ":" ++ k` decodes to a mapping
without an entry for `n ++ ":" ++ k`, `Get` returns a nil value and a nil error. -/
theorem get_missing_outer_key_nil {V : Type} (g : Gob V) (n k : String) (m : Entry V)
    (hm : m.lookup (n ++ ":" ++ k) = none) :
    (∀ (s : Redis) (it : RItem), s.roundTrip.1 = false →
      s.lookup (n ++ ":" ++ k) = some it → g.dec it.value = some m →
      (RedisCache.Get g ⟨n⟩ k s).1 = .ok none) ∧
    (∀ (s : Badger) (it : BItem),
      s.lookup (n ++ ":" ++ k) = some it → g.dec it.value = some m →
      BadgerCache.Get g ⟨n⟩ k s = .ok none) := by
  constructor
  · intro s it hs hl hd
    have hl2 : Redis.lookupIn s.now s.data (storageKey n k) = some it := hl
    rw [redis_Get_fst, hs]
    simp only [Bool.false_eq_true, if_false, hl2, hd]
    simp [Entry.index, storageKey, hm]
  · intro s it hl hd
    have hl2 : Badger.lookupIn s.unix s.data (storageKey n k) = some it := hl
    rw [badger_Get_eq]
    simp only [hl2, hd]
    simp [Entry.index, storageKey, hm]

/-- C8 amended, on the stores whose entry under `app:k` holds the payload written for
`other:k`. -/
theorem get_missing_outer_key_nil_witness :
    (RedisCache.Get demoGob ⟨"app"⟩ "k" demoForeignRedis).1 = .ok none ∧
      BadgerCache.Get demoGob ⟨"app"⟩ "k" demoForeignBadger = .ok none :=
  have h := get_missing_outer_key_nil demoGob "app" "k" [("other:k", some 7)] (by decide)
  ⟨h.1 demoForeignRedis ⟨demoEnc [("other:k", some 7)], none⟩ (by decide) (by decide)
      (by decide),
   h.2 demoForeignBadger ⟨demoEnc [("other:k", some 7)], 0⟩ (by decide) (by decide)⟩

/-! ## Forget and Empty -/

/-- C9: on both backends, whatever the store holds, a `Forget` whose store command
succeeds returns nil, and a following `Has` of the same key returns false: on redis
`(false, nil)` when its command reaches the server, on badger `false` with the
not-found error of `Get`. -/
theorem forget_then_has (n k : String) :
    (∀ s : Redis, s.roundTrip.1 = false →
      (RedisCache.Forget ⟨n⟩ k s).1 = none ∧
      resultBool (RedisCache.Has ⟨n⟩ k (RedisCache.Forget ⟨n⟩ k s).2).1 = false ∧
      ((RedisCache.Forget ⟨n⟩ k s).2.roundTrip.1 = false →
        (RedisCache.Has ⟨n⟩ k (RedisCache.Forget ⟨n⟩ k s).2).1 = .ok false)) ∧
    (∀ (V : Type) (g : Gob V) (s : Badger), s.faults.head? ≠ some true →
      (BadgerCache.Forget ⟨n⟩ k s).1 = none ∧
      resultBool (BadgerCache.Has g ⟨n⟩ k (BadgerCache.Forget ⟨n⟩ k s).2) = false ∧
      BadgerCache.Has g ⟨n⟩ k (BadgerCache.Forget ⟨n⟩ k s).2 = .error .notFound) := by
  constructor
  · intro s hs
    obtain ⟨hres, hdata, hnow, _⟩ := redis_Forget_spec ⟨n⟩ k s
    rw [hs] at hres hdata
    simp only [Bool.false_eq_true, if_false] at hres hdata
    have hlook : Redis.lookupIn (RedisCache.Forget ⟨n⟩ k s).2.now
        (RedisCache.Forget ⟨n⟩ k s).2.data (storageKey n k) = none := by
      rw [hdata]
      unfold Redis.lookupIn
      rw [find_filter_ne]
      rfl
    refine ⟨hres, ?_, ?_⟩
    · rw [redis_Has_fst, hlook]
      cases (RedisCache.Forget ⟨n⟩ k s).2.roundTrip.1 <;> simp [resultBool]
    · intro h2
      rw [redis_Has_fst, hlook, h2]
      rfl
  · intro V g s hs
    obtain ⟨hres, hdata, _, _⟩ := badger_update_ok s
      (fun d => d.filter (fun e => e.1 != storageKey n k)) hs
    have hhas : BadgerCache.Has g ⟨n⟩ k (BadgerCache.Forget ⟨n⟩ k s).2 =
        .error .notFound := by
      unfold BadgerCache.Has
      rw [badger_Get_eq]
      have hlook : Badger.lookupIn (BadgerCache.Forget ⟨n⟩ k s).2.unix
          (BadgerCache.Forget ⟨n⟩ k s).2.data (storageKey n k) = none := by
        show Badger.lookupIn _ (s.update _).2.data _ = none
        rw [hdata]
        unfold Badger.lookupIn
        rw [find_filter_ne]
        rfl
      simp only [hlook]
    refine ⟨hres, ?_, hhas⟩
    rw [hhas]
    rfl

/-- C9, on stores that hold the key and on which every command succeeds. -/
theorem forget_then_has_witness :
    (RedisCache.Has ⟨"app"⟩ "user:1" (RedisCache.Forget ⟨"app"⟩ "user:1" demoRedis).2).1 =
        .ok false ∧
      BadgerCache.Has demoGob ⟨"app"⟩ "user:1"
        (BadgerCache.Forget ⟨"app"⟩ "user:1" demoBadger).2 = .error .notFound :=
  have h := forget_then_has "app" "user:1"
  ⟨(h.1 demoRedis (by decide)).2.2 (by decide),
   (h.2 Nat demoGob demoBadger (by decide)).2.2⟩

/-- C10: on each backend `Empty()` and `EmptyByMatch("")` are the same computation:
same result and same final state, from every state, for every namespace. -/
theorem empty_eq_emptyByMatch_nil :
    (∀ (c : RedisCache) (fuel : Nat) (s : Redis),
      c.Empty fuel s = c.EmptyByMatch fuel "" s) ∧
    (∀ (b : BadgerCache) (s : Badger), b.Empty s = b.EmptyByMatch "" s) := by
  constructor
  · intro c fuel s
    unfold RedisCache.Empty RedisCache.EmptyByMatch storageKey
    rw [String.append_empty]
  · intro b s
    rfl

/-! ## Validation -/

/-- C16 fails as stated: on a `Validation` whose error map is nil (the zero value of
the struct), `Check(false, key, message)` panics in the assignment of `AddError`, so no
entry is recorded; `Valid` is true on that value. -/
theorem validation_check_nil_map :
    Validation.Check ⟨[], none⟩ false "email" "Invalid email address" = none ∧
      Validation.Valid ⟨[], none⟩ = true := by
  decide

/-- C16, amended: for every `Validation`, `Check(true, key, message)` leaves it
unchanged, and `Valid` is true exactly when the error map has no entry; when the error
map is initialised, as `Validator` builds it, `Check(false, key, message)` leaves an
entry under `key` (so that `Valid` is false), the entry of every other key as it was
and the form data as they were. -/
theorem validation_check (v : Validation) (key message : String) :
    v.Check true key message = some v ∧
      (v.Valid = true ↔ ∀ k, v.entry k = none) ∧
      (∀ m, v.Errors = some m →
        ∃ v2, v.Check false key message = some v2 ∧ (v2.entry key).isSome = true ∧
          v2.Valid = false ∧ (∀ k, k ≠ key → v2.entry k = v.entry k) ∧
          v2.Data = v.Data) := by
  rcases v with ⟨data, errors⟩
  refine ⟨rfl, ?_, ?_⟩
  · simp only [Validation.Valid, Validation.entry]
    cases errors with
    | none => simp
    | some m =>
      cases m with
      | nil => simp
      | cons x xs =>
        simp only [List.length_cons, Nat.add_one_ne_zero, beq_iff_eq, false_iff,
          not_forall]
        exact ⟨x.1, by simp [List.lookup]⟩
  · intro m hm
    simp only at hm
    subst hm
    cases hl : m.lookup key with
    | some msg =>
      refine ⟨⟨data, some m⟩, ?_, ?_, ?_, fun _ _ => rfl, rfl⟩
      · simp [Validation.Check, Validation.AddError, hl]
      · simp [Validation.entry, hl]
      · cases m with
        | nil => simp at hl
        | cons x xs => simp [Validation.Valid]
    | none =>
      refine ⟨⟨data, some (m ++ [(key, message)])⟩, ?_, ?_, ?_, ?_, rfl⟩
      · simp [Validation.Check, Validation.AddError, hl]
      · simp [Validation.entry, List.lookup_append, hl, List.lookup]
      · simp [Validation.Valid]
      · intro k hk
        have hne : (k == key) = false := by simpa using hk
        simp [Validation.entry, List.lookup_append, List.lookup, hne]

/-- C16 amended, on the validation `Validator` builds: the failed check leaves the
entry of `email`, and `Valid` is false on the result. -/
theorem validation_check_witness :
    ∃ v2, (Validation.Validator []).Check false "email" "Invalid email address" = some v2 ∧
      (v2.entry "email").isSome = true ∧ v2.Valid = false ∧
      (∀ k, k ≠ "email" → v2.entry k = (Validation.Validator []).entry k) ∧
      v2.Data = (Validation.Validator []).Data :=
  (validation_check (Validation.Validator []) "email" "Invalid email address").2.2 [] rfl

/-! ## Session -/

/-- C19 fails as stated: `153722868` parses as a decimal integer, and the lifetime
`time.Duration(minutes) * time.Minute` wraps around to a negative duration. -/
theorem initSession_lifetime_wraps :
    Atoi "153722868" = some 153722868 ∧
      (Session.InitSession asciiLower ⟨"153722868", "true", "celeritas", "localhost",
        "cookie"⟩).Lifetime = -9223371993709551616 ∧
      (153722868 : Int) * timeMinute = 9223372080000000000 := by
  decide

/-- C19, amended: the lifetime of the manager is `CookieLifetime` minutes when
`strconv.Atoi` accepts it with a value between -153722867 and 153722867 (the minutes a
`time.Duration` can hold), and 60 minutes when `strconv.Atoi` rejects it; the `Secure`
flag of the cookie always equals the `Persist` flag, both true exactly when
`CookiePersist` in lower case is `true`. -/
theorem initSession_cookie (toLower : String → String) (c : Session) :
    (∀ m : Int, Atoi c.CookieLifetime = some m → -153722867 ≤ m → m ≤ 153722867 →
      (c.InitSession toLower).Lifetime = m * timeMinute) ∧
    (Atoi c.CookieLifetime = none → (c.InitSession toLower).Lifetime = 60 * timeMinute) ∧
    (c.InitSession toLower).Cookie.Secure = (c.InitSession toLower).Cookie.Persist ∧
    ((c.InitSession toLower).Cookie.Persist = true ↔ toLower c.CookiePersist = "true") := by
  refine ⟨?_, ?_, rfl, ?_⟩
  · intro m hm hlo hhi
    simp only [Session.InitSession, hm, wrapInt64, timeMinute]
    omega
  · intro hm
    simp only [Session.InitSession, hm, wrapInt64, timeMinute]
    decide
  · simp [Session.InitSession]

/-- C19 amended, on a configuration with a lifetime of 30 minutes. -/
theorem initSession_cookie_witness :
    (Session.InitSession asciiLower ⟨"30", "TRUE", "celeritas", "localhost",
      "redis"⟩).Lifetime = 30 * timeMinute :=
  (initSession_cookie asciiLower ⟨"30", "TRUE", "celeritas", "localhost", "redis"⟩).1 30
    (by decide) (by decide) (by decide)

/-! ## Batches of the badger eviction -/

section Batches

/-- The loop of `emptyByMatch` is the loop over any handle, at `deleteKeys`. -/
theorem collectLoop_eq_on (size : Nat) : ∀ (keys batch : List String) (n : Nat)
    (s : Badger), BadgerCache.collectLoop size keys batch n s =
      collectLoopOn BadgerCache.deleteKeys size keys batch n s
  | [], batch, n, s => by
    unfold BadgerCache.collectLoop collectLoopOn
    by_cases hn : n > 0
    · simp only [hn, if_true]
      rcases BadgerCache.deleteKeys batch s with ⟨_ | err, s2⟩ <;> rfl
    · simp [hn]
  | key :: more, batch, n, s => by
    unfold BadgerCache.collectLoop collectLoopOn
    simp only
    split
    · rcases BadgerCache.deleteKeys (batch ++ [key]) s with ⟨_ | err, s2⟩
      · exact collectLoop_eq_on size more [] 0 s2
      · rfl
    · exact collectLoop_eq_on size more _ _ s

/-- Recording goes on after the batches recorded before. -/
theorem record_log (size : Nat) : ∀ (keys batch : List String) (n : Nat)
    (log : List (List String)),
    (collectLoopOn recordBatch size keys batch n log).2 =
      log ++ (collectLoopOn recordBatch size keys batch n []).2
  | [], batch, n, log => by
    unfold collectLoopOn
    by_cases hn : n > 0 <;> simp [hn, recordBatch]
  | key :: more, batch, n, log => by
    unfold collectLoopOn
    by_cases hn : n + 1 = size
    · simp only [hn, if_true, recordBatch]
      rw [record_log size more [] 0 (log ++ [batch ++ [key]]),
        record_log size more [] 0 ([] ++ [batch ++ [key]])]
      simp
    · simp only [hn, if_false]
      exact record_log size more _ _ log

/-- Over any handle the loop is the run of the recorded batches, in order, up to the
first transaction that fails. -/
theorem collectLoopOn_run {σ : Type} (del : List String → σ → Option Err × σ)
    (size : Nat) : ∀ (keys batch : List String) (n : Nat) (s : σ),
    collectLoopOn del size keys batch n s =
      runBatches del (collectLoopOn recordBatch size keys batch n []).2 s
  | [], batch, n, s => by
    unfold collectLoopOn
    by_cases hn : n > 0
    · simp only [hn, if_true, recordBatch, List.nil_append, runBatches]
    · simp only [hn, if_false, runBatches]
  | key :: more, batch, n, s => by
    unfold collectLoopOn
    by_cases hn : n + 1 = size
    · simp only [hn, if_true, recordBatch]
      rw [record_log size more [] 0 ([] ++ [batch ++ [key]])]
      simp only [List.nil_append, List.singleton_append, runBatches]
      rcases del (batch ++ [key]) s with ⟨_ | err, s2⟩
      · exact collectLoopOn_run del size more [] 0 s2
      · rfl
    · simp only [hn, if_false]
      exact collectLoopOn_run del size more _ _ s

/-- The recorded batches, from a pending batch below the batch size: their
concatenation, their sizes, and the size of all but the last. -/
theorem recorded_batches (size : Nat) : ∀ (keys batch : List String),
    batch.length < size →
    (collectLoopOn recordBatch size keys batch batch.length []).2.flatten = batch ++ keys ∧
      (∀ b ∈ (collectLoopOn recordBatch size keys batch batch.length []).2,
        b ≠ [] ∧ b.length ≤ size) ∧
      (∀ b ∈ (collectLoopOn recordBatch size keys batch batch.length []).2.dropLast,
        b.length = size)
  | [], batch, hb => by
    unfold collectLoopOn
    by_cases hn : batch.length > 0
    · simp only [hn, if_true, recordBatch, List.nil_append]
      refine ⟨by simp, ?_, by simp⟩
      intro b hmem
      have : b = batch := by simpa using hmem
      subst this
      exact ⟨fun h => by simp [h] at hn, by omega⟩
    · have : batch = [] := List.length_eq_zero.mp (by omega)
      subst this
      simp
  | key :: more, batch, hb => by
    unfold collectLoopOn
    by_cases hn : batch.length + 1 = size
    · have ih := recorded_batches size more [] (by simp only [List.length_nil]; omega)
      simp only [List.length_nil, List.nil_append] at ih
      simp only [hn, if_true, recordBatch]
      rw [record_log size more [] 0 ([] ++ [batch ++ [key]])]
      simp only [List.nil_append, List.singleton_append]
      refine ⟨?_, ?_, ?_⟩
      · rw [List.flatten_cons, ih.1]
        simp
      · intro b hmem
        rcases List.mem_cons.mp hmem with h | h
        · subst h
          exact ⟨by simp, by simp; omega⟩
        · exact ih.2.1 b h
      · intro b hmem
        cases hrec : (collectLoopOn recordBatch size more [] 0 []).2 with
        | nil => simp [hrec] at hmem
        | cons x xs =>
          rw [hrec, List.dropLast_cons₂] at hmem
          rcases List.mem_cons.mp hmem with h | h
          · subst h
            simp; omega
          · exact ih.2.2 b (by rw [hrec]; exact h)
    · have ih := recorded_batches size more (batch ++ [key])
        (by simp only [List.length_append, List.length_singleton]; omega)
      simp only [List.length_append, List.length_singleton] at ih
      simp only [hn, if_false]
      refine ⟨?_, ih.2.1, ih.2.2⟩
      rw [ih.1]
      simp

/-- No run of batches returns an error: it returns nil or panics. -/
theorem runBatches_no_error {σ : Type} (del : List String → σ → Option Err × σ) :
    ∀ (bs : List (List String)) (s : σ) (err : Err),
    (runBatches del bs s).1 ≠ .returned (some err)
  | [], s, err => by simp [runBatches]
  | b :: bs, s, err => by
    unfold runBatches
    rcases hd : del b s with ⟨_ | e, s2⟩
    · exact runBatches_no_error del bs s2 err
    · simp

/-- A run of batches on a database whose transaction number `j + 1` is the first to
fail: the run panics there, with the keys of the first `j` batches deleted and the
rest of the schedule of faults untouched. -/
theorem runBatches_fail : ∀ (j : Nat) (bs : List (List String)) (s : Badger)
    (rest : List Bool), s.faults = List.replicate j false ++ true :: rest →
    j < bs.length →
    (runBatches BadgerCache.deleteKeys bs s).1 = .panicked .conn ∧
      (runBatches BadgerCache.deleteKeys bs s).2.data =
        s.data.filter (fun e => !((bs.take j).flatten).contains e.1) ∧
      (runBatches BadgerCache.deleteKeys bs s).2.faults = rest
  | _, [], _, _, _, hj => absurd hj (by simp)
  | 0, b :: bs, s, rest, hf, _ => by
    rcases s with ⟨data, now, faults⟩
    simp only [List.replicate_zero, List.nil_append] at hf
    subst hf
    simp [runBatches, BadgerCache.deleteKeys, Badger.update]
  | j + 1, b :: bs, s, rest, hf, hj => by
    rcases s with ⟨data, now, faults⟩
    simp only [List.replicate_succ, List.cons_append] at hf
    subst hf
    have ih := runBatches_fail j bs
      ⟨data.filter (fun e => !b.contains e.1), now, List.replicate j false ++ true :: rest⟩
      rest rfl (by simpa using hj)
    simp only [runBatches, BadgerCache.deleteKeys, Badger.update, Bool.false_eq_true,
      if_false]
    refine ⟨ih.1, ?_, ih.2.2⟩
    rw [ih.2.1, List.filter_filter]
    apply List.filter_congr
    intro e _
    simp only [List.take_succ_cons, List.flatten_cons, List.contains_eq_any_beq,
      List.any_append, Bool.not_or]
    ac_rfl

end Batches

/-- C17: the delete transactions `emptyByMatch` issues for the keys its iterator
yields, in order: their concatenation is the sequence of keys, none is empty, each
holds at most 100000 keys, every one but the last holds exactly 100000, and without a
matching key there is none.  They are the transactions of the loop over any handle,
run in order up to the first that fails, and `emptyByMatch` is that loop on the keys
of the iterator. -/
theorem emptyByMatch_batches (keys : List String) :
    (issued BadgerCache.collectSize keys).flatten = keys ∧
      (∀ b ∈ issued BadgerCache.collectSize keys, b ≠ [] ∧ b.length ≤ 100000) ∧
      (∀ b ∈ (issued BadgerCache.collectSize keys).dropLast, b.length = 100000) ∧
      (keys = [] → issued BadgerCache.collectSize keys = []) ∧
      (∀ (σ : Type) (del : List String → σ → Option Err × σ) (s : σ),
        collectLoopOn del BadgerCache.collectSize keys [] 0 s =
          runBatches del (issued BadgerCache.collectSize keys) s) ∧
      (∀ (c : BadgerCache) (str : String) (s : Badger),
        c.emptyByMatch str s = collectLoopOn BadgerCache.deleteKeys BadgerCache.collectSize
          (s.iterKeys (storageKey c.Prefix str)) [] 0 s) := by
  have h := recorded_batches BadgerCache.collectSize keys []
    (by simp [BadgerCache.collectSize])
  simp only [List.length_nil, List.nil_append] at h
  refine ⟨h.1, h.2.1, h.2.2, ?_, ?_, ?_⟩
  · intro hk
    subst hk
    simp [issued, collectLoopOn]
  · intro σ del s
    exact collectLoopOn_run del BadgerCache.collectSize keys [] 0 s
  · intro c str s
    exact collectLoop_eq_on _ _ _ _ s

/-- C17, on two keys and on no key. -/
theorem emptyByMatch_batches_witness :
    (issued BadgerCache.collectSize ["app:user:1", "app:user:2"]).flatten =
        ["app:user:1", "app:user:2"] ∧
      issued BadgerCache.collectSize [] = [] :=
  ⟨(emptyByMatch_batches ["app:user:1", "app:user:2"]).1,
   (emptyByMatch_batches []).2.2.2.1 rfl⟩

/-- The batches of five keys for a batch size of two. -/
theorem issued_five_by_two :
    issued 2 ["a", "b", "c", "d", "e"] = [["a", "b"], ["c", "d"], ["e"]] := by
  decide

/-- C14 fails as stated: the only delete transaction fails, and `EmptyByMatch` panics
with the error instead of returning it. -/
theorem emptyByMatch_panics :
    BadgerCache.EmptyByMatch ⟨"app"⟩ "user:" ⟨demoBadger.data, 0, [true]⟩ =
      (.panicked .conn, ⟨demoBadger.data, 0, []⟩) := by
  decide

/-- C14, amended: `BadgerCache.EmptyByMatch` never returns a non-nil error.  When the
delete transaction of batch `j + 1` is the first to fail, the call panics with that
error, the keys of the `j` batches before it are deleted and no other entry is, and no
later transaction is attempted (the rest of the schedule of faults is untouched). -/
theorem emptyByMatch_failed_batch (c : BadgerCache) (p : String) (s : Badger) :
    (∀ err, (c.EmptyByMatch p s).1 ≠ .returned (some err)) ∧
    (∀ (j : Nat) (rest : List Bool),
      s.faults = List.replicate j false ++ true :: rest →
      j < (issued BadgerCache.collectSize (s.iterKeys (storageKey c.Prefix p))).length →
      (c.EmptyByMatch p s).1 = .panicked .conn ∧
      (c.EmptyByMatch p s).2.data = s.data.filter (fun e =>
        !(((issued BadgerCache.collectSize
          (s.iterKeys (storageKey c.Prefix p))).take j).flatten).contains e.1) ∧
      (c.EmptyByMatch p s).2.faults = rest) := by
  have hrun : c.EmptyByMatch p s = runBatches BadgerCache.deleteKeys
      (issued BadgerCache.collectSize (s.iterKeys (storageKey c.Prefix p))) s := by
    show BadgerCache.collectLoop _ _ [] 0 s = _
    rw [collectLoop_eq_on, collectLoopOn_run]
    rfl
  rw [hrun]
  exact ⟨fun err => runBatches_no_error _ _ s err,
    fun j rest hf hj => runBatches_fail j _ s rest hf hj⟩

/-- C14 amended, on the database holding `app:order:1`, `app:user:1` and `app:user:2`
with a first transaction that fails. -/
theorem emptyByMatch_failed_batch_witness :
    (BadgerCache.EmptyByMatch ⟨"app"⟩ "user:" ⟨demoBadger.data, 0, [true]⟩).1 =
        .panicked .conn ∧
      (BadgerCache.EmptyByMatch ⟨"app"⟩ "user:" ⟨demoBadger.data, 0, [true]⟩).2.faults =
        [] :=
  have h := (emptyByMatch_failed_batch ⟨"app"⟩ "user:" ⟨demoBadger.data, 0, [true]⟩).2 0 []
    rfl (by decide)
  ⟨h.1, h.2.2⟩

/-! ## The connection pool -/

section Pool

variable {V : Type}

/-- A round trip leaves the keyspace, the clock and the pool as they were. -/
theorem roundTrip_frame (s : Redis) :
    s.roundTrip.2.data = s.data ∧ s.roundTrip.2.now = s.now ∧
      s.roundTrip.2.active = s.active ∧ s.roundTrip.2.borrows = s.borrows := by
  rcases s with ⟨data, now, faults, active, borrows⟩
  rcases faults with _ | ⟨f, fs⟩ <;> exact ⟨rfl, rfl, rfl, rfl⟩

theorem doExists_pool (s : Redis) (key : String) :
    (s.doExists key).2.active = s.active ∧ (s.doExists key).2.borrows = s.borrows := by
  rcases s with ⟨data, now, faults, active, borrows⟩
  rcases faults with _ | ⟨f, fs⟩
  · exact ⟨rfl, rfl⟩
  · cases f <;> exact ⟨rfl, rfl⟩

theorem doGet_pool (s : Redis) (key : String) :
    (s.doGet key).2.active = s.active ∧ (s.doGet key).2.borrows = s.borrows := by
  rcases s with ⟨data, now, faults, active, borrows⟩
  rcases faults with _ | ⟨f, fs⟩
  · cases hl : Redis.lookup ⟨data, now, [], active, borrows⟩ key <;>
      simp [Redis.doGet, Redis.roundTrip, hl]
  · cases f
    · cases hl : Redis.lookup ⟨data, now, fs, active, borrows⟩ key <;>
        simp [Redis.doGet, Redis.roundTrip, hl]
    · exact ⟨rfl, rfl⟩

theorem doSet_pool (s : Redis) (key : String) (value : Bytes) :
    (s.doSet key value).2.active = s.active ∧
      (s.doSet key value).2.borrows = s.borrows := by
  rcases s with ⟨data, now, faults, active, borrows⟩
  rcases faults with _ | ⟨f, fs⟩
  · exact ⟨rfl, rfl⟩
  · cases f <;> exact ⟨rfl, rfl⟩

theorem doSetex_pool (s : Redis) (key : String) (seconds : Int) (value : Bytes) :
    (s.doSetex key seconds value).2.active = s.active ∧
      (s.doSetex key seconds value).2.borrows = s.borrows := by
  rcases s with ⟨data, now, faults, active, borrows⟩
  rcases faults with _ | ⟨f, fs⟩
  · by_cases ht : seconds ≤ 0 <;> simp [Redis.doSetex, Redis.roundTrip, ht, Redis.put]
  · cases f
    · by_cases ht : seconds ≤ 0 <;> simp [Redis.doSetex, Redis.roundTrip, ht, Redis.put]
    · exact ⟨rfl, rfl⟩

theorem doDel_pool (s : Redis) (key : String) :
    (s.doDel key).2.active = s.active ∧ (s.doDel key).2.borrows = s.borrows ∧
      (s.doDel key).2.data.length ≤ s.data.length := by
  rcases s with ⟨data, now, faults, active, borrows⟩
  rcases faults with _ | ⟨f, fs⟩
  · exact ⟨rfl, rfl, List.length_filter_le _ _⟩
  · cases f
    · exact ⟨rfl, rfl, List.length_filter_le _ _⟩
    · exact ⟨rfl, rfl, le_refl _⟩

theorem doScan_pool (s : Redis) (cursor : Nat) (pattern : String) :
    (s.doScan cursor pattern).2.active = s.active ∧
      (s.doScan cursor pattern).2.borrows = s.borrows ∧
      (s.doScan cursor pattern).2.data = s.data := by
  rcases s with ⟨data, now, faults, active, borrows⟩
  rcases faults with _ | ⟨f, fs⟩
  · exact ⟨rfl, rfl, rfl⟩
  · cases f <;> exact ⟨rfl, rfl, rfl⟩

/-- The cursor a SCAN reply carries, when the command reaches the server. -/
theorem doScan_cursor (s : Redis) (cursor : Nat) (pattern : String) (next : Nat)
    (k : List String) (h : (s.doScan cursor pattern).1 = .ok (next, k)) :
    next = if cursor + Redis.scanCount < s.data.length then cursor + Redis.scanCount
      else 0 := by
  rcases s with ⟨data, now, faults, active, borrows⟩
  rcases faults with _ | ⟨f, fs⟩
  · simp only [Redis.doScan, Redis.roundTrip, Bool.false_eq_true, if_false,
      Except.ok.injEq, Prod.mk.injEq] at h
    exact h.1.symm
  · cases f
    · simp only [Redis.doScan, Redis.roundTrip, Bool.false_eq_true, if_false,
        Except.ok.injEq, Prod.mk.injEq] at h
      exact h.1.symm
    · simp [Redis.doScan, Redis.roundTrip] at h

/-- The state `Has` leaves is the state of its command, with the connection closed. -/
theorem redis_Has_snd (c : RedisCache) (k : String) (s : Redis) :
    (c.Has k s).2 = (s.borrow.doExists (storageKey c.Prefix k)).2.release := by
  unfold RedisCache.Has
  simp only
  rcases s.borrow.doExists (storageKey c.Prefix k) with ⟨_ | _, s2⟩ <;> rfl

theorem redis_Get_snd (g : Gob V) (c : RedisCache) (k : String) (s : Redis) :
    (c.Get g k s).2 = (s.borrow.doGet (storageKey c.Prefix k)).2.release := by
  unfold RedisCache.Get
  simp only
  rcases s.borrow.doGet (storageKey c.Prefix k) with ⟨_ | b, s2⟩
  · rfl
  · simp only
    cases decode g b <;> rfl

theorem redis_Forget_snd (c : RedisCache) (k : String) (s : Redis) :
    (c.Forget k s).2 = (s.borrow.doDel (storageKey c.Prefix k)).2.release := by
  unfold RedisCache.Forget
  simp only
  rcases s.borrow.doDel (storageKey c.Prefix k) with ⟨_ | _, s2⟩ <;> rfl

/-- `Set` borrows one connection and gives it back, on every path. -/
theorem redis_Set_pool (g : Gob V) (c : RedisCache) (k : String) (v : Option V)
    (expires : List Int) (s : Redis) :
    (c.Set g k v expires s).2.active = s.active ∧
      (c.Set g k v expires s).2.borrows = s.borrows + 1 := by
  unfold RedisCache.Set
  simp only
  cases encode g [(storageKey c.Prefix k, v)] with
  | error err => exact ⟨by simp [Redis.release, Redis.borrow], rfl⟩
  | ok encoded =>
    rcases expires with _ | ⟨t, ts⟩
    · have hp := doSet_pool s.borrow (storageKey c.Prefix k) encoded
      simp only
      rcases hd : s.borrow.doSet (storageKey c.Prefix k) encoded with ⟨_ | _, s2⟩ <;>
        (rw [hd] at hp; simp only [Redis.release]
         exact ⟨by rw [hp.1]; simp [Redis.borrow], by rw [hp.2]; rfl⟩)
    · have hp := doSetex_pool s.borrow (storageKey c.Prefix k) t encoded
      simp only
      rcases hd : s.borrow.doSetex (storageKey c.Prefix k) t encoded with ⟨_ | _, s2⟩ <;>
        (rw [hd] at hp; simp only [Redis.release]
         exact ⟨by rw [hp.1]; simp [Redis.borrow], by rw [hp.2]; rfl⟩)

/-- The scan loop leaves the pool and the keyspace as they were, whenever it ends. -/
theorem getKeysLoop_frame (pattern : String) : ∀ (fuel iter : Nat) (keys : List String)
    (s : Redis) (out : (List String × Option Err) × Redis),
    RedisCache.getKeysLoop pattern fuel iter keys s = some out →
    out.2.active = s.active ∧ out.2.borrows = s.borrows ∧ out.2.data = s.data
  | 0, _, _, _, _, h => by simp [RedisCache.getKeysLoop] at h
  | fuel + 1, iter, keys, s, out, h => by
    have hp := doScan_pool s iter (pattern ++ "*")
    unfold RedisCache.getKeysLoop at h
    rcases hd : s.doScan iter (pattern ++ "*") with ⟨_ | ⟨next, k⟩, s2⟩
    · rw [hd] at h hp
      simp only [Option.some.injEq] at h
      subst h
      exact hp
    · rw [hd] at h hp
      simp only at h
      by_cases hn : next = 0
      · simp only [hn, if_true, Option.some.injEq] at h
        subst h
        exact hp
      · simp only [hn, if_false] at h
        have ih := getKeysLoop_frame pattern fuel next (keys ++ k) s2 out h
        exact ⟨ih.1.trans hp.1, ih.2.1.trans hp.2.1, ih.2.2.trans hp.2.2⟩

/-- The scan loop ends when it has fuel for every page, whatever commands fail. -/
theorem getKeysLoop_returns (pattern : String) : ∀ (fuel iter : Nat) (keys : List String)
    (s : Redis), 0 < fuel → s.data.length ≤ iter + Redis.scanCount * fuel →
    (RedisCache.getKeysLoop pattern fuel iter keys s).isSome = true
  | 0, _, _, _, h0, _ => absurd h0 (by omega)
  | fuel + 1, iter, keys, s, _, hlen => by
    have hsc : Redis.scanCount = 10 := rfl
    have hp := doScan_pool s iter (pattern ++ "*")
    have hc := doScan_cursor s iter (pattern ++ "*")
    unfold RedisCache.getKeysLoop
    rcases hd : s.doScan iter (pattern ++ "*") with ⟨_ | ⟨next, k⟩, s2⟩
    · rfl
    · rw [hd] at hp hc
      have hnext := hc next k rfl
      simp only
      by_cases hn : next = 0
      · simp [hn]
      · simp only [hn, if_false]
        have hlt : iter + Redis.scanCount < s.data.length := by
          by_contra hcon
          rw [if_neg hcon] at hnext
          exact hn hnext
        rw [if_pos hlt] at hnext
        apply getKeysLoop_returns pattern fuel next (keys ++ k) s2
        · rw [hsc] at hlt hlen; omega
        · rw [hp.2.2, hnext]; rw [hsc] at hlen ⊢; omega

/-- `getKeys` gives its connection back whenever it returns, and keeps the keyspace. -/
theorem getKeys_frame (c : RedisCache) (fuel : Nat) (pattern : String) (s : Redis)
    (out : (List String × Option Err) × Redis) (h : c.getKeys fuel pattern s = some out) :
    out.2.active = s.active ∧ out.2.borrows = s.borrows + 1 ∧ out.2.data = s.data := by
  unfold RedisCache.getKeys at h
  simp only at h
  cases hl : RedisCache.getKeysLoop pattern fuel 0 [] s.borrow with
  | none => rw [hl] at h; simp at h
  | some r =>
    rw [hl] at h
    simp only [Option.some.injEq] at h
    subst h
    have hf := getKeysLoop_frame pattern fuel 0 [] s.borrow r hl
    refine ⟨?_, ?_, hf.2.2⟩
    · show r.2.active - 1 = s.active
      rw [hf.1]
      simp [Redis.borrow]
    · show r.2.borrows = s.borrows + 1
      rw [hf.2.1]
      rfl

/-- The delete loop leaves the number of borrowed connections as it was, on every
path, and does not grow the keyspace. -/
theorem deleteMatches_frame (c : RedisCache) : ∀ (found : List String) (s : Redis),
    (c.deleteMatches found s).2.active = s.active ∧
      (c.deleteMatches found s).2.data.length ≤ s.data.length
  | [], s => ⟨rfl, le_refl _⟩
  | x :: xs, s => by
    have hf : (c.Forget x s).2.active = s.active ∧
        (c.Forget x s).2.data.length ≤ s.data.length := by
      rw [redis_Forget_snd]
      have := doDel_pool s.borrow (storageKey c.Prefix x)
      refine ⟨?_, this.2.2⟩
      show (s.borrow.doDel (storageKey c.Prefix x)).2.active - 1 = s.active
      rw [this.1]
      simp [Redis.borrow]
    have hd := doDel_pool (c.Forget x s).2 x
    unfold RedisCache.deleteMatches
    simp only
    rcases hdel : (c.Forget x s).2.doDel x with ⟨_ | _, s2⟩
    · rw [hdel] at hd
      exact ⟨hd.1.trans hf.1, le_trans hd.2.2 hf.2⟩
    · rw [hdel] at hd
      have ih := deleteMatches_frame c xs s2
      exact ⟨ih.1.trans (hd.1.trans hf.1), le_trans ih.2 (le_trans hd.2.2 hf.2)⟩

/-- `EmptyByMatch` gives every connection back whenever it returns. -/
theorem redis_EmptyByMatch_frame (c : RedisCache) (fuel : Nat) (p : String) (s : Redis)
    (out : Option Err × Redis) (h : c.EmptyByMatch fuel p s = some out) :
    out.2.active = s.active ∧ out.2.data.length ≤ s.data.length := by
  unfold RedisCache.EmptyByMatch at h
  simp only at h
  cases hk : c.getKeys fuel (storageKey c.Prefix p) s.borrow with
  | none => rw [hk] at h; simp at h
  | some r =>
    have hf := getKeys_frame c fuel _ s.borrow r hk
    rw [hk] at h
    rcases r with ⟨⟨found, _ | err⟩, s2⟩
    · simp only [Option.some.injEq] at h
      subst h
      have hd := deleteMatches_frame c found s2
      have hlen : s2.data.length = s.data.length := congrArg List.length hf.2.2
      refine ⟨?_, le_trans hd.2 (le_of_eq hlen)⟩
      show (c.deleteMatches found s2).2.active - 1 = s.active
      rw [hd.1, hf.1]
      simp [Redis.borrow]
    · simp only [Option.some.injEq] at h
      subst h
      have hlen : s2.data.length = s.data.length := congrArg List.length hf.2.2
      refine ⟨?_, le_of_eq hlen⟩
      show s2.active - 1 = s.active
      rw [hf.1]
      simp [Redis.borrow]

/-- `Empty` is `EmptyByMatch` of the empty pattern. -/
theorem redis_Empty_unfold (c : RedisCache) (fuel : Nat) (s : Redis) :
    c.Empty fuel s = c.EmptyByMatch fuel "" s := by
  unfold RedisCache.Empty RedisCache.EmptyByMatch storageKey
  rw [String.append_empty]

/-- `getKeys` and `EmptyByMatch` return when they have fuel for every page. -/
theorem redis_EmptyByMatch_returns (c : RedisCache) (fuel : Nat) (p : String) (s : Redis)
    (hfuel : s.data.length < fuel) :
    (c.getKeys fuel p s).isSome = true ∧ (c.EmptyByMatch fuel p s).isSome = true := by
  have hsc : Redis.scanCount = 10 := rfl
  have hk : ∀ (pat : String) (t : Redis), t.data = s.data →
      (c.getKeys fuel pat t).isSome = true := by
    intro pat t ht
    have := getKeysLoop_returns pat fuel 0 [] t.borrow (by omega)
      (by show t.data.length ≤ _; rw [ht, hsc]; omega)
    unfold RedisCache.getKeys
    simp only
    cases hl : RedisCache.getKeysLoop pat fuel 0 [] t.borrow with
    | none => rw [hl] at this; simp at this
    | some r => rfl
  refine ⟨hk p s rfl, ?_⟩
  have := hk (storageKey c.Prefix p) s.borrow rfl
  unfold RedisCache.EmptyByMatch
  simp only
  cases hg : c.getKeys fuel (storageKey c.Prefix p) s.borrow with
  | none => rw [hg] at this; simp at this
  | some r =>
    rcases r with ⟨⟨found, _ | err⟩, s2⟩ <;> rfl

end Pool

/-- C15: with the pool as a count of borrowed connections, `Has`, `Get`, `Set` and
`Forget` borrow exactly one connection per call, and after each of them, and after
`getKeys`, `Empty` and `EmptyByMatch` whenever they return, on the success path and on
every error path, as many connections are outstanding as before the call; with fuel
for every page of the scan the three do return. -/
theorem redis_no_connection_leak {V : Type} (g : Gob V) (c : RedisCache) (s : Redis) :
    (∀ k, (c.Has k s).2.active = s.active ∧ (c.Has k s).2.borrows = s.borrows + 1) ∧
    (∀ k, (c.Get g k s).2.active = s.active ∧ (c.Get g k s).2.borrows = s.borrows + 1) ∧
    (∀ k v expires, (c.Set g k v expires s).2.active = s.active ∧
      (c.Set g k v expires s).2.borrows = s.borrows + 1) ∧
    (∀ k, (c.Forget k s).2.active = s.active ∧ (c.Forget k s).2.borrows = s.borrows + 1) ∧
    (∀ fuel pattern out, c.getKeys fuel pattern s = some out → out.2.active = s.active) ∧
    (∀ fuel out, c.Empty fuel s = some out → out.2.active = s.active) ∧
    (∀ fuel p out, c.EmptyByMatch fuel p s = some out → out.2.active = s.active) ∧
    (∀ fuel p, s.data.length < fuel →
      (c.getKeys fuel p s).isSome = true ∧ (c.Empty fuel s).isSome = true ∧
        (c.EmptyByMatch fuel p s).isSome = true) := by
  refine ⟨?_, ?_, ?_, ?_, ?_, ?_, ?_, ?_⟩
  · intro k
    rw [redis_Has_snd]
    have := doExists_pool s.borrow (storageKey c.Prefix k)
    constructor
    · show (s.borrow.doExists (storageKey c.Prefix k)).2.active - 1 = s.active
      rw [this.1]
      simp [Redis.borrow]
    · show (s.borrow.doExists (storageKey c.Prefix k)).2.borrows = s.borrows + 1
      rw [this.2]
      rfl
  · intro k
    rw [redis_Get_snd]
    have := doGet_pool s.borrow (storageKey c.Prefix k)
    constructor
    · show (s.borrow.doGet (storageKey c.Prefix k)).2.active - 1 = s.active
      rw [this.1]
      simp [Redis.borrow]
    · show (s.borrow.doGet (storageKey c.Prefix k)).2.borrows = s.borrows + 1
      rw [this.2]
      rfl
  · intro k v expires
    exact redis_Set_pool g c k v expires s
  · intro k
    rw [redis_Forget_snd]
    have := doDel_pool s.borrow (storageKey c.Prefix k)
    constructor
    · show (s.borrow.doDel (storageKey c.Prefix k)).2.active - 1 = s.active
      rw [this.1]
      simp [Redis.borrow]
    · show (s.borrow.doDel (storageKey c.Prefix k)).2.borrows = s.borrows + 1
      rw [this.2.1]
      rfl
  · intro fuel pattern out h
    exact (getKeys_frame c fuel pattern s out h).1
  · intro fuel out h
    rw [redis_Empty_unfold] at h
    exact (redis_EmptyByMatch_frame c fuel "" s out h).1
  · intro fuel p out h
    exact (redis_EmptyByMatch_frame c fuel p s out h).1
  · intro fuel p hfuel
    have h1 := redis_EmptyByMatch_returns c fuel p s hfuel
    have h2 := redis_EmptyByMatch_returns c fuel "" s hfuel
    rw [← redis_Empty_unfold] at h2
    exact ⟨h1.1, h2.2, h1.2⟩

/-- C15, on a keyspace of three keys with two connections out and a first command that
fails: `EmptyByMatch` returns the error of `getKeys` and two connections are out
afterwards. -/
theorem redis_no_connection_leak_witness :
    (RedisCache.EmptyByMatch ⟨"app"⟩ 4 "user:" ⟨demoRedis.data, 0, [true], 2, 5⟩).isSome =
        true ∧
      ∀ out, RedisCache.EmptyByMatch ⟨"app"⟩ 4 "user:" ⟨demoRedis.data, 0, [true], 2, 5⟩ =
        some out → out.2.active = 2 :=
  have h := redis_no_connection_leak demoGob ⟨"app"⟩ ⟨demoRedis.data, 0, [true], 2, 5⟩
  ⟨(h.2.2.2.2.2.2.2 4 "user:" (by decide)).2.2, fun out ho => h.2.2.2.2.2.2.1 4 "user:" out ho⟩

/-! ## The scan cursor -/

section Cursor

theorem redisWire_scan : redisWire.scan = Redis.doScan := rfl

theorem redisWire_del : redisWire.del = Redis.doDel := rfl

theorem redisWire_borrow : redisWire.borrow = Redis.borrow := rfl

theorem redisWire_release : redisWire.release = Redis.release := rfl

/-- The scan loop of `getKeys` is the loop over any connection, at the redis server. -/
theorem getKeysLoop_eq_on (pattern : String) : ∀ (fuel iter : Nat) (keys : List String)
    (s : Redis), RedisCache.getKeysLoop pattern fuel iter keys s =
      getKeysLoopOn redisWire pattern fuel iter keys s
  | 0, _, _, _ => rfl
  | fuel + 1, iter, keys, s => by
    unfold RedisCache.getKeysLoop getKeysLoopOn
    simp only [redisWire_scan]
    rcases s.doScan iter (pattern ++ "*") with ⟨_ | ⟨next, k⟩, s2⟩
    · rfl
    · simp only
      by_cases hn : next = 0
      · simp [hn]
      · simp only [hn, if_false]
        exact getKeysLoop_eq_on pattern fuel next (keys ++ k) s2

theorem getKeys_eq_on (c : RedisCache) (fuel : Nat) (pattern : String) (s : Redis) :
    c.getKeys fuel pattern s = getKeysOn redisWire fuel pattern s := by
  unfold RedisCache.getKeys getKeysOn
  simp only [getKeysLoop_eq_on, redisWire_borrow, redisWire_release]
  rcases getKeysLoopOn redisWire pattern fuel 0 [] s.borrow with _ | ⟨r, s2⟩ <;> rfl

theorem Forget_eq_on (c : RedisCache) (k : String) (s : Redis) :
    c.Forget k s = ForgetOn redisWire c k s := by
  unfold RedisCache.Forget ForgetOn
  simp only [redisWire_borrow, redisWire_release, redisWire_del]
  rcases s.borrow.doDel (storageKey c.Prefix k) with ⟨_ | _, s2⟩ <;> rfl

theorem deleteMatches_eq_on (c : RedisCache) : ∀ (found : List String) (s : Redis),
    c.deleteMatches found s = deleteMatchesOn redisWire c found s
  | [], _ => rfl
  | x :: xs, s => by
    unfold RedisCache.deleteMatches deleteMatchesOn
    simp only [redisWire_del, ← Forget_eq_on]
    rcases (c.Forget x s).2.doDel x with ⟨_ | _, s2⟩
    · rfl
    · exact deleteMatches_eq_on c xs s2

/-- `EmptyByMatch` is `EmptyByMatch` over any connection, at the redis server. -/
theorem redis_EmptyByMatch_eq_on (c : RedisCache) (fuel : Nat) (p : String) (s : Redis) :
    c.EmptyByMatch fuel p s = EmptyByMatchOn redisWire c fuel p s := by
  unfold RedisCache.EmptyByMatch EmptyByMatchOn
  simp only [getKeys_eq_on, deleteMatches_eq_on, redisWire_borrow, redisWire_release]
  rcases getKeysOn redisWire fuel (storageKey c.Prefix p) s.borrow with
    _ | ⟨⟨found, _ | err⟩, s2⟩ <;> rfl

theorem scriptWire_scan_some (r : Nat × List String)
    (rest : List (Option (Nat × List String))) (sent : List Cmd) (cur : Nat)
    (pat : String) :
    scriptWire.scan ⟨some r :: rest, sent⟩ cur pat =
      (.ok r, ⟨rest, sent ++ [Cmd.scan cur pat]⟩) := rfl

theorem scriptWire_scan_none (rest : List (Option (Nat × List String)))
    (sent : List Cmd) (cur : Nat) (pat : String) :
    scriptWire.scan ⟨none :: rest, sent⟩ cur pat =
      (.error .conn, ⟨rest, sent ++ [Cmd.scan cur pat]⟩) := rfl

theorem scriptWire_del (st : Script) (key : String) :
    scriptWire.del st key = (.ok (), ⟨st.replies, st.sent ++ [Cmd.del key]⟩) := rfl

theorem scriptWire_borrow (st : Script) : scriptWire.borrow st = st := rfl

theorem scriptWire_release (st : Script) : scriptWire.release st = st := rfl

/-- The scan loop against a script whose replies carry a non-zero cursor up to a reply
with cursor 0: the requests carry the cursor it starts with and then each cursor
returned, and the result is the concatenation of the pages. -/
theorem getKeysLoop_script (pattern : String) : ∀ (rs : List (Nat × List String))
    (fuel iter : Nat) (keys last : List String)
    (rest : List (Option (Nat × List String))) (sent : List Cmd),
    (∀ r ∈ rs, r.1 ≠ 0) → rs.length < fuel →
    getKeysLoopOn scriptWire pattern fuel iter keys
        ⟨rs.map some ++ some (0, last) :: rest, sent⟩ =
      some ((keys ++ (rs.map (·.2)).flatten ++ last, none),
        ⟨rest, sent ++ (iter :: rs.map (·.1)).map (fun cur => Cmd.scan cur (pattern ++ "*"))⟩)
  | _, 0, _, _, _, _, _, _, h => absurd h (by omega)
  | [], fuel + 1, iter, keys, last, rest, sent, _, _ => by
    unfold getKeysLoopOn
    simp only [List.map_nil, List.nil_append, scriptWire_scan_some]
    simp
  | r :: rs, fuel + 1, iter, keys, last, rest, sent, hrs, hfuel => by
    have hr : r.1 ≠ 0 := hrs r (List.mem_cons_self _ _)
    have ih := getKeysLoop_script pattern rs fuel r.1 (keys ++ r.2) last rest
      (sent ++ [Cmd.scan iter (pattern ++ "*")])
      (fun x hx => hrs x (List.mem_cons_of_mem _ hx))
      (by simp only [List.length_cons] at hfuel; omega)
    unfold getKeysLoopOn
    simp only [List.map_cons, List.cons_append, scriptWire_scan_some, hr, if_false]
    rw [ih]
    simp [List.append_assoc]

/-- The scan loop against a script in which a request fails before any reply with
cursor 0: the loop ends with the error of `getKeys`. -/
theorem getKeysLoop_script_fail (pattern : String) : ∀ (rs : List (Nat × List String))
    (fuel iter : Nat) (keys : List String)
    (rest : List (Option (Nat × List String))) (sent : List Cmd),
    (∀ r ∈ rs, r.1 ≠ 0) → rs.length < fuel →
    getKeysLoopOn scriptWire pattern fuel iter keys ⟨rs.map some ++ none :: rest, sent⟩ =
      some ((keys ++ (rs.map (·.2)).flatten,
          some (.msg ("error retrieving '" ++ pattern ++ "' keys"))),
        ⟨rest, sent ++ (iter :: rs.map (·.1)).map (fun cur => Cmd.scan cur (pattern ++ "*"))⟩)
  | _, 0, _, _, _, _, _, h => absurd h (by omega)
  | [], fuel + 1, iter, keys, rest, sent, _, _ => by
    unfold getKeysLoopOn
    simp only [List.map_nil, List.nil_append, scriptWire_scan_none]
    simp
  | r :: rs, fuel + 1, iter, keys, rest, sent, hrs, hfuel => by
    have hr : r.1 ≠ 0 := hrs r (List.mem_cons_self _ _)
    have ih := getKeysLoop_script_fail pattern rs fuel r.1 (keys ++ r.2) rest
      (sent ++ [Cmd.scan iter (pattern ++ "*")])
      (fun x hx => hrs x (List.mem_cons_of_mem _ hx))
      (by simp only [List.length_cons] at hfuel; omega)
    unfold getKeysLoopOn
    simp only [List.map_cons, List.cons_append, scriptWire_scan_some, hr, if_false]
    rw [ih]
    simp [List.append_assoc]

/-- The delete loop against a script: for each key found, the DEL of `Forget` and then
the DEL of the key itself. -/
theorem deleteMatches_script (c : RedisCache) : ∀ (found : List String) (st : Script),
    deleteMatchesOn scriptWire c found st =
      (none, ⟨st.replies, st.sent ++
        (found.map (fun x => [Cmd.del (storageKey c.Prefix x), Cmd.del x])).flatten⟩)
  | [], st => by simp [deleteMatchesOn]
  | x :: xs, st => by
    unfold deleteMatchesOn
    simp only [ForgetOn, scriptWire_del, scriptWire_borrow, scriptWire_release]
    rw [deleteMatches_script c xs]
    simp [List.append_assoc]

end Cursor

/-- C18: against every sequence of successful SCAN replies whose last is the first
with cursor 0, `getKeys` requests cursor 0, then each cursor returned, stops after the
reply with cursor 0 and returns the pages concatenated with a nil error;
`EmptyByMatch` then sends a DEL for every key of that result.  When a SCAN request
fails, `EmptyByMatch` returns the error of `getKeys` without sending a DEL, and the
keyspace of the server is as before.  The loops over a connection are the loops of
`RedisCache` at the redis server. -/
theorem getKeys_follows_cursor (c : RedisCache) (p : String)
    (rs : List (Nat × List String)) (last : List String)
    (rest : List (Option (Nat × List String))) (fuel : Nat)
    (hrs : ∀ r ∈ rs, r.1 ≠ 0) (hfuel : rs.length < fuel) :
    getKeysOn scriptWire fuel p ⟨rs.map some ++ some (0, last) :: rest, []⟩ =
        some (((rs.map (·.2)).flatten ++ last, none),
          ⟨rest, (0 :: rs.map (·.1)).map (fun cur => Cmd.scan cur (p ++ "*"))⟩) ∧
    EmptyByMatchOn scriptWire c fuel p ⟨rs.map some ++ some (0, last) :: rest, []⟩ =
        some (none, ⟨rest,
          (0 :: rs.map (·.1)).map (fun cur => Cmd.scan cur (storageKey c.Prefix p ++ "*")) ++
          (((rs.map (·.2)).flatten ++ last).map
            (fun x => [Cmd.del (storageKey c.Prefix x), Cmd.del x])).flatten⟩) ∧
    EmptyByMatchOn scriptWire c fuel p ⟨rs.map some ++ none :: rest, []⟩ =
        some (some (.msg ("error retrieving '" ++ storageKey c.Prefix p ++ "' keys")),
          ⟨rest, (0 :: rs.map (·.1)).map
            (fun cur => Cmd.scan cur (storageKey c.Prefix p ++ "*"))⟩) ∧
    (∀ (s : Redis) (fuel2 : Nat),
      c.getKeys fuel2 p s = getKeysOn redisWire fuel2 p s ∧
      c.EmptyByMatch fuel2 p s = EmptyByMatchOn redisWire c fuel2 p s) ∧
    (∀ (s : Redis) (fuel2 : Nat) (keys : List String) (err : Err) (s2 : Redis),
      c.getKeys fuel2 (storageKey c.Prefix p) s.borrow = some ((keys, some err), s2) →
      c.EmptyByMatch fuel2 p s = some (some err, s2.release) ∧
        s2.release.data = s.data) := by
  refine ⟨?_, ?_, ?_, ?_, ?_⟩
  · unfold getKeysOn
    simp only [scriptWire_borrow, scriptWire_release]
    rw [getKeysLoop_script p rs fuel 0 [] last rest [] hrs hfuel]
    simp
  · unfold EmptyByMatchOn getKeysOn
    simp only [scriptWire_borrow, scriptWire_release]
    rw [getKeysLoop_script (storageKey c.Prefix p) rs fuel 0 [] last rest [] hrs hfuel]
    simp only [List.nil_append, deleteMatches_script]
  · unfold EmptyByMatchOn getKeysOn
    simp only [scriptWire_borrow, scriptWire_release]
    rw [getKeysLoop_script_fail (storageKey c.Prefix p) rs fuel 0 [] rest [] hrs hfuel]
    simp
  · intro s fuel2
    exact ⟨getKeys_eq_on c fuel2 p s, redis_EmptyByMatch_eq_on c fuel2 p s⟩
  · intro s fuel2 keys err s2 h
    have hf := getKeys_frame c fuel2 _ s.borrow _ h
    refine ⟨?_, hf.2.2⟩
    unfold RedisCache.EmptyByMatch
    simp only [h]

/-- C18, on a script of two pages: cursor 7 with `app:u1`, then cursor 0 with
`app:u2`. -/
theorem getKeys_follows_cursor_witness :
    getKeysOn scriptWire 5 "app:u" ⟨[some (7, ["app:u1"]), some (0, ["app:u2"])], []⟩ =
        some ((["app:u1", "app:u2"], none),
          ⟨[], [Cmd.scan 0 "app:u*", Cmd.scan 7 "app:u*"]⟩) ∧
      EmptyByMatchOn scriptWire ⟨"app"⟩ 5 "u" ⟨[some (7, ["app:u1"]), none], []⟩ =
        some (some (.msg "error retrieving 'app:u' keys"),
          ⟨[], [Cmd.scan 0 "app:u*", Cmd.scan 7 "app:u*"]⟩) :=
  have h := getKeys_follows_cursor ⟨"app"⟩ "app:u" [(7, ["app:u1"])] ["app:u2"] [] 5
    (by decide) (by decide)
  have h2 := getKeys_follows_cursor ⟨"app"⟩ "u" [(7, ["app:u1"])] ["app:u2"] [] 5
    (by decide) (by decide)
  ⟨h.1, h2.2.2.1⟩

/-! ## Runs of the eviction on reliable stores -/

section Runs

variable {V : Type}

/-- `RedisCache.EmptyByMatch` on a reliable server, with fuel for every page of the
scan: the result, the keyspace it leaves, and a server that is still reliable. -/
theorem redis_EmptyByMatch_run (c : RedisCache) (fuel : Nat) (p : String) (s : Redis)
    (h : s.Reliable) (hfuel : s.data.length < fuel) :
    ∃ s1, RedisCache.EmptyByMatch c fuel p s = some (none, s1) ∧
      s1.data = s.data.filter (fun e =>
        !((s.data.filter (fun e => Redis.liveAt s.now e &&
            stringmatch (storageKey c.Prefix p ++ "*") e.1)).map (·.1)).contains e.1 &&
        !(((s.data.filter (fun e => Redis.liveAt s.now e &&
            stringmatch (storageKey c.Prefix p ++ "*") e.1)).map (·.1)).map
              (storageKey c.Prefix)).contains e.1) ∧
      s1.now = s.now ∧ s1.Reliable := by
  have hsc : Redis.scanCount = 10 := rfl
  obtain ⟨s1, hkeys, hd1, hn1, hr1⟩ := getKeysLoop_ok (storageKey c.Prefix p) fuel 0 []
    s.borrow.borrow h (by omega)
    (by show s.data.length ≤ 0 + Redis.scanCount * fuel; rw [hsc]; omega)
  obtain ⟨s2, hdel, hd2, hn2, hr2⟩ := deleteMatches_ok c
    ((s.data.filter (fun e => Redis.liveAt s.now e &&
      stringmatch (storageKey c.Prefix p ++ "*") e.1)).map (·.1)) s1.release hr1
  refine ⟨s2.release, ?_, ?_, ?_, hr2⟩
  · unfold RedisCache.EmptyByMatch RedisCache.getKeys
    simp only [hkeys, List.drop_zero, List.nil_append]
    show some ((RedisCache.deleteMatches c _ s1.release).1,
      (RedisCache.deleteMatches c _ s1.release).2.release) = _
    rw [show (s.borrow.borrow).data = s.data from rfl,
      show (s.borrow.borrow).now = s.now from rfl, hdel]
  · show s2.data = _
    rw [hd2]
    show s1.data.filter _ = _
    rw [hd1]
    rfl
  · show s2.now = _
    rw [hn2]
    exact hn1

/-- The batching loop leaves a reliable database reliable. -/
theorem collectLoop_reliable (size : Nat) : ∀ (keys batch : List String) (n : Nat)
    (s : Badger), s.Reliable → (BadgerCache.collectLoop size keys batch n s).2.Reliable
  | [], batch, n, s, h => by
    obtain ⟨s2, hdel, _, _, hr⟩ := deleteKeys_ok batch s h
    unfold BadgerCache.collectLoop
    by_cases hn : n > 0
    · simp only [hn, if_true, hdel]
      exact hr
    · simp only [hn, if_false]
      exact h
  | key :: more, batch, n, s, h => by
    obtain ⟨s2, hdel, _, _, hr⟩ := deleteKeys_ok (batch ++ [key]) s h
    unfold BadgerCache.collectLoop
    by_cases hn : n + 1 = size
    · simp only [hn, if_true, hdel]
      exact collectLoop_reliable size more [] 0 s2 hr
    · simp only [hn, if_false]
      exact collectLoop_reliable size more _ _ s h

/-- `BadgerCache.EmptyByMatch` on a database in key order whose transactions succeed:
the result, the entries it leaves, the clock, and a database that is still reliable. -/
theorem badger_EmptyByMatch_run (c : BadgerCache) (p : String) (s : Badger)
    (hs : s.Sorted) (hf : s.Reliable) :
    (c.EmptyByMatch p s).1 = .returned none ∧
      (c.EmptyByMatch p s).2.data = s.data.filter
        (fun e => !(Badger.liveAt s.unix e && hasPrefix (storageKey c.Prefix p) e.1)) ∧
      (c.EmptyByMatch p s).2.now = s.now ∧ (c.EmptyByMatch p s).2.Reliable := by
  have hloop := collectLoop_ok BadgerCache.collectSize
    (s.iterKeys (storageKey c.Prefix p)) [] s hf
  simp only [List.length_nil, List.nil_append] at hloop
  refine ⟨hloop.1, ?_, hloop.2.2, collectLoop_reliable _ _ _ _ s hf⟩
  show (BadgerCache.collectLoop BadgerCache.collectSize
    (s.iterKeys (storageKey c.Prefix p)) [] 0 s).2.data = _
  rw [hloop.2.1, iterKeys_eq s _ hs]
  apply List.filter_congr
  intro e he
  congr 1
  rw [Bool.eq_iff_iff]
  simp only [List.contains_iff_exists_mem_beq, List.mem_map, List.mem_filter,
    Badger.live, beq_iff_eq, Bool.and_eq_true]
  constructor
  · rintro ⟨k, ⟨e2, ⟨⟨he2, hl⟩, hp⟩, rfl⟩, hk⟩
    have : e2 = e := eq_of_key_eq s.data hs e2 e he2 he hk.symm
    subst this
    exact ⟨hl, hp⟩
  · rintro ⟨hl, hp⟩
    exact ⟨e.1, ⟨e, ⟨⟨he, hl⟩, hp⟩, rfl⟩, rfl⟩

/-- A filter that keeps every entry of a key does not change what is found under it. -/
theorem find_filter_keep {α : Type} (l : List (String × α)) (key : String)
    (q : String × α → Bool) (hq : ∀ e ∈ l, e.1 = key → q e = true) :
    (l.filter q).find? (fun e => e.1 == key) = l.find? (fun e => e.1 == key) := by
  induction l with
  | nil => rfl
  | cons x xs ih =>
    have ih2 := ih (fun e he => hq e (List.mem_cons_of_mem _ he))
    by_cases hx : x.1 = key
    · have := hq x (List.mem_cons_self _ _) hx
      simp [List.filter_cons, this, hx]
    · by_cases hqx : q x = true
      · simp [List.filter_cons, hqx, hx, ih2]
      · simp [List.filter_cons, hqx, hx, ih2]

/-- A filter that drops every entry of a key leaves nothing to find under it. -/
theorem find_filter_drop {α : Type} (l : List (String × α)) (key : String)
    (q : String × α → Bool) (hq : ∀ e ∈ l, e.1 = key → q e = false) :
    (l.filter q).find? (fun e => e.1 == key) = none := by
  rw [List.find?_eq_none]
  intro e he
  obtain ⟨hel, hqe⟩ := List.mem_filter.mp he
  intro hk
  have hk2 : e.1 = key := by simpa using hk
  rw [hq e hel hk2] at hqe
  exact absurd hqe (by simp)

/-- Distinct namespaces without a colon: no storage key of the second begins with the
storage prefix of the first. -/
theorem prefix_of_colon_free : ∀ (a b k : List Char), ':' ∉ a → ':' ∉ b → a ≠ b →
    (a ++ [':']).isPrefixOf (b ++ ':' :: k) = false
  | [], [], _, _, _, h => absurd rfl h
  | [], x :: b, k, _, hb, _ => by
    have : x ≠ ':' := fun hx => hb (hx ▸ List.mem_cons_self _ _)
    simp [List.isPrefixOf, Ne.symm this]
  | y :: a, [], k, ha, _, _ => by
    have : y ≠ ':' := fun hy => ha (hy ▸ List.mem_cons_self _ _)
    simp [List.isPrefixOf, this]
  | y :: a, x :: b, k, ha, hb, hne => by
    by_cases hyx : y = x
    · subst hyx
      have ih := prefix_of_colon_free a b k
        (fun h => ha (List.mem_cons_of_mem _ h)) (fun h => hb (List.mem_cons_of_mem _ h))
        (fun h => hne (by rw [h]))
      simpa [List.isPrefixOf] using ih
    · simp [List.isPrefixOf, hyx]

theorem namespaces_apart (n1 n2 : String) (h1 : ':' ∉ n1.data) (h2 : ':' ∉ n2.data)
    (hne : n1 ≠ n2) (k : String) : hasPrefix (n1 ++ ":") (n2 ++ ":" ++ k) = false := by
  unfold hasPrefix
  have := prefix_of_colon_free n1.data n2.data k.data h1 h2
    (fun h => hne (String.ext h))
  simpa [String.data_append] using this

theorem hasPrefix_append (a b : String) : hasPrefix a (a ++ b) = true := by
  unfold hasPrefix
  rw [List.isPrefixOf_iff_prefix, String.data_append]
  exact List.prefix_append _ _

theorem reliable_roundTrip (s : Redis) (h : s.Reliable) : s.roundTrip.1 = false := by
  rcases s with ⟨data, now, faults, active, borrows⟩
  rcases faults with _ | ⟨f, fs⟩
  · rfl
  · exact h f (List.mem_cons_self _ _)

theorem filter_swap {α : Type} (p q : α → Bool) (l : List α) :
    (l.filter p).filter q = (l.filter q).filter p := by
  rw [List.filter_filter, List.filter_filter]
  apply List.filter_congr
  intro e _
  exact Bool.and_comm _ _

/-- `RedisCache.Empty` on a reliable server, for a namespace without glob
metacharacters: nothing is left under a key that begins with the storage prefix, and
what is under any other key is as before. -/
theorem redis_Empty_lookup (n : String) (hg : globFree n = true) (fuel : Nat) (s : Redis)
    (hr : s.Reliable) (hfuel : s.data.length < fuel) :
    ∃ s1, RedisCache.Empty ⟨n⟩ fuel s = some (none, s1) ∧ s1.Reliable ∧
      (∀ key, hasPrefix (n ++ ":") key = true → s1.lookup key = none) ∧
      (∀ key, hasPrefix (n ++ ":") key = false → s1.lookup key = s.lookup key) := by
  obtain ⟨s1, h1, hd1, hn1, hr1⟩ := redis_EmptyByMatch_run ⟨n⟩ fuel "" s hr hfuel
  have hsk : storageKey n "" = n ++ ":" := by
    unfold storageKey
    rw [String.append_empty]
  simp only [show ∀ k, stringmatch (storageKey (RedisCache.mk n).Prefix "" ++ "*") k =
    hasPrefix (n ++ ":") k from fun k => by
      rw [← hsk]; exact stringmatch_storageKey n "" k hg (by decide)] at hd1
  have hfound : ∀ e ∈ s.data, Redis.liveAt s.now e = true →
      ((s.data.filter (fun e => Redis.liveAt s.now e &&
        hasPrefix (n ++ ":") e.1)).map (·.1)).contains e.1 = hasPrefix (n ++ ":") e.1 := by
    intro e he hl
    rw [Bool.eq_iff_iff]
    simp only [List.contains_iff_exists_mem_beq, List.mem_map, List.mem_filter,
      Bool.and_eq_true, beq_iff_eq]
    constructor
    · rintro ⟨k, ⟨e2, ⟨_, _, hp2⟩, rfl⟩, hk⟩
      rw [hk]
      exact hp2
    · intro hpe
      exact ⟨e.1, ⟨e, ⟨he, hl, hpe⟩, rfl⟩, rfl⟩
  have hnested : ∀ e : String × RItem,
      (((s.data.filter (fun e => Redis.liveAt s.now e &&
        hasPrefix (n ++ ":") e.1)).map (·.1)).map
          (storageKey (RedisCache.mk n).Prefix)).contains e.1 = true →
      hasPrefix (n ++ ":") e.1 = true := by
    intro e
    simp only [List.contains_iff_exists_mem_beq, List.mem_map, beq_iff_eq]
    rintro ⟨k, ⟨x, _, rfl⟩, hk⟩
    rw [hk]
    show hasPrefix (n ++ ":") (n ++ ":" ++ x) = true
    exact hasPrefix_append _ _
  have hlook : ∀ key, s1.lookup key = (((s.data.filter (Redis.liveAt s.now)).filter
      (fun e => !((s.data.filter (fun e => Redis.liveAt s.now e &&
          hasPrefix (n ++ ":") e.1)).map (·.1)).contains e.1 &&
        !(((s.data.filter (fun e => Redis.liveAt s.now e &&
          hasPrefix (n ++ ":") e.1)).map (·.1)).map
            (storageKey (RedisCache.mk n).Prefix)).contains e.1)).find?
      (fun e => e.1 == key)).map (·.2) := by
    intro key
    unfold Redis.lookup Redis.lookupIn
    rw [hd1, hn1, filter_swap]
  refine ⟨s1, ?_, hr1, ?_, ?_⟩
  · rw [redis_Empty_unfold]
    exact h1
  · intro key hkey
    rw [hlook, find_filter_drop]
    · rfl
    · intro e he hek
      obtain ⟨hed, hl⟩ := List.mem_filter.mp he
      rw [hfound e hed hl, hek, hkey]
      rfl
  · intro key hkey
    rw [hlook, find_filter_keep]
    · rfl
    · intro e he hek
      obtain ⟨hed, hl⟩ := List.mem_filter.mp he
      have hc : (((s.data.filter (fun e => Redis.liveAt s.now e &&
          hasPrefix (n ++ ":") e.1)).map (·.1)).map
            (storageKey (RedisCache.mk n).Prefix)).contains e.1 = false := by
        cases hc : (((s.data.filter (fun e => Redis.liveAt s.now e &&
          hasPrefix (n ++ ":") e.1)).map (·.1)).map
            (storageKey (RedisCache.mk n).Prefix)).contains e.1
        · rfl
        · have := hnested e hc
          rw [hek, hkey] at this
          exact absurd this (by simp)
      rw [hfound e hed hl, hc, hek, hkey]
      rfl

/-- `BadgerCache.Empty` on a database in key order whose transactions succeed: nothing
is left under a key that begins with the storage prefix, and what is under any other
key is as before. -/
theorem badger_Empty_lookup (n : String) (s : Badger) (hs : s.Sorted) (hf : s.Reliable) :
    (BadgerCache.Empty ⟨n⟩ s).1 = .returned none ∧
      (∀ key, hasPrefix (n ++ ":") key = true →
        (BadgerCache.Empty ⟨n⟩ s).2.lookup key = none) ∧
      (∀ key, hasPrefix (n ++ ":") key = false →
        (BadgerCache.Empty ⟨n⟩ s).2.lookup key = s.lookup key) := by
  obtain ⟨h1, hd, hnow, _⟩ := badger_EmptyByMatch_run ⟨n⟩ "" s hs hf
  have hsk : storageKey (BadgerCache.mk n).Prefix "" = n ++ ":" := by
    unfold storageKey
    rw [String.append_empty]
  rw [hsk] at hd
  have hu : (BadgerCache.EmptyByMatch ⟨n⟩ "" s).2.unix = s.unix := by
    unfold Badger.unix
    rw [hnow]
  have hlook : ∀ key, (BadgerCache.Empty ⟨n⟩ s).2.lookup key =
      (((s.data.filter (Badger.liveAt s.unix)).filter
        (fun e => !(Badger.liveAt s.unix e && hasPrefix (n ++ ":") e.1))).find?
      (fun e => e.1 == key)).map (·.2) := by
    intro key
    show Badger.lookupIn (BadgerCache.EmptyByMatch ⟨n⟩ "" s).2.unix
      (BadgerCache.EmptyByMatch ⟨n⟩ "" s).2.data key = _
    unfold Badger.lookupIn
    rw [hd, hu, filter_swap]
  refine ⟨h1, ?_, ?_⟩
  · intro key hkey
    rw [hlook, find_filter_drop]
    · rfl
    · intro e he hek
      obtain ⟨_, hl⟩ := List.mem_filter.mp he
      rw [hl, hek, hkey]
      rfl
  · intro key hkey
    rw [hlook, find_filter_keep]
    · rfl
    · intro e he hek
      rw [hek, hkey]
      simp

end Runs

/-! ## Namespaces -/

/-- C11 fails as stated.  The namespaces `app` and `app:x` are distinct, and `Empty` on
`app` removes the entry written through `app:x`, on both backends: no colon is escaped,
so its storage key begins with `app:`.  On redis the namespace `?` is read as a glob,
and `Empty` on it removes the entry of the namespace `b`. -/
theorem empty_crosses_namespaces :
    BadgerCache.Get demoGob ⟨"app:x"⟩ "k" demoSharedBadger = .ok (some 7) ∧
      BadgerCache.Get demoGob ⟨"app:x"⟩ "k" (BadgerCache.Empty ⟨"app"⟩ demoSharedBadger).2 =
        .error .notFound ∧
      (RedisCache.Get demoGob ⟨"app:x"⟩ "k" demoSharedRedis).1 = .ok (some 7) ∧
      (RedisCache.Empty ⟨"app"⟩ 2 demoSharedRedis).map
        (fun r => (RedisCache.Get demoGob ⟨"app:x"⟩ "k" r.2).1) = some (.error .notFound) ∧
      (RedisCache.Get demoGob ⟨"b"⟩ "k" demoOtherRedis).1 = .ok (some 7) ∧
      (RedisCache.Empty ⟨"?"⟩ 2 demoOtherRedis).map
        (fun r => (RedisCache.Get demoGob ⟨"b"⟩ "k" r.2).1) = some (.error .notFound) := by
  decide

/-- C11, amended: for namespaces `n1` and `n2` such that no storage key of `n2` begins
with `n1 ++ ":"`, `Empty` on the `n1` instance returns nil, leaves no entry under any
storage key of `n1`, and leaves what is stored under every storage key of `n2` as it
was, so that `Get` through the `n2` instance returns the same before and after; on
redis for `n1` without glob metacharacters, on a reliable server with fuel for every
page, and on badger for a database in key order whose transactions succeed. -/
theorem empty_isolation {V : Type} (g : Gob V) (n1 n2 : String)
    (hsep : ∀ k, hasPrefix (n1 ++ ":") (n2 ++ ":" ++ k) = false) :
    (globFree n1 = true → ∀ (fuel : Nat) (s : Redis), s.Reliable → s.data.length < fuel →
      ∃ s1, RedisCache.Empty ⟨n1⟩ fuel s = some (none, s1) ∧
        (∀ k, s1.lookup (n1 ++ ":" ++ k) = none) ∧
        (∀ k, s1.lookup (n2 ++ ":" ++ k) = s.lookup (n2 ++ ":" ++ k)) ∧
        (∀ k, (RedisCache.Get g ⟨n2⟩ k s1).1 = (RedisCache.Get g ⟨n2⟩ k s).1)) ∧
    (∀ s : Badger, s.Sorted → s.Reliable →
      (BadgerCache.Empty ⟨n1⟩ s).1 = .returned none ∧
        (∀ k, (BadgerCache.Empty ⟨n1⟩ s).2.lookup (n1 ++ ":" ++ k) = none) ∧
        (∀ k, (BadgerCache.Empty ⟨n1⟩ s).2.lookup (n2 ++ ":" ++ k) =
          s.lookup (n2 ++ ":" ++ k)) ∧
        (∀ k, BadgerCache.Get g ⟨n2⟩ k (BadgerCache.Empty ⟨n1⟩ s).2 =
          BadgerCache.Get g ⟨n2⟩ k s)) := by
  constructor
  · intro hg fuel s hr hfuel
    obtain ⟨s1, h1, hr1, hdrop, hkeep⟩ := redis_Empty_lookup n1 hg fuel s hr hfuel
    refine ⟨s1, h1, fun k => hdrop _ (hasPrefix_append _ _), fun k => hkeep _ (hsep k), ?_⟩
    intro k
    have hl : Redis.lookupIn s1.now s1.data (storageKey n2 k) =
        Redis.lookupIn s.now s.data (storageKey n2 k) := hkeep _ (hsep k)
    rw [redis_Get_fst, redis_Get_fst, reliable_roundTrip s hr, reliable_roundTrip s1 hr1]
    simp only [hl]
  · intro s hs hf
    obtain ⟨h1, hdrop, hkeep⟩ := badger_Empty_lookup n1 s hs hf
    refine ⟨h1, fun k => hdrop _ (hasPrefix_append _ _), fun k => hkeep _ (hsep k), ?_⟩
    intro k
    have hl : Badger.lookupIn (BadgerCache.Empty ⟨n1⟩ s).2.unix
        (BadgerCache.Empty ⟨n1⟩ s).2.data (storageKey n2 k) =
        Badger.lookupIn s.unix s.data (storageKey n2 k) := hkeep _ (hsep k)
    rw [badger_Get_eq, badger_Get_eq]
    simp only [hl]

/-- C11 amended, for the namespaces `app` and `b` on a keyspace and a database that
hold `app:user:1` and, through `b`, the value 7 under `k`: after `Empty` on `app`
nothing is left under `app:user:1`, and `Get` of `k` through `b` still returns 7. -/
theorem empty_isolation_witness :
    (RedisCache.Get demoGob ⟨"b"⟩ "k" demoTwoRedis).1 = .ok (some 7) ∧
      (∃ s1, RedisCache.Empty ⟨"app"⟩ 4 demoTwoRedis = some (none, s1) ∧
        s1.lookup ("app" ++ ":" ++ "user:1") = none ∧
        s1.lookup ("b" ++ ":" ++ "k") = demoTwoRedis.lookup ("b" ++ ":" ++ "k") ∧
        (RedisCache.Get demoGob ⟨"b"⟩ "k" s1).1 = .ok (some 7)) ∧
      demoTwoBadger.lookup ("app" ++ ":" ++ "user:1") = some ⟨[2], 0⟩ ∧
      (BadgerCache.Empty ⟨"app"⟩ demoTwoBadger).1 = .returned none ∧
      (BadgerCache.Empty ⟨"app"⟩ demoTwoBadger).2.lookup ("app" ++ ":" ++ "user:1") = none ∧
      (BadgerCache.Empty ⟨"app"⟩ demoTwoBadger).2.lookup ("b" ++ ":" ++ "k") =
        demoTwoBadger.lookup ("b" ++ ":" ++ "k") ∧
      BadgerCache.Get demoGob ⟨"b"⟩ "k" (BadgerCache.Empty ⟨"app"⟩ demoTwoBadger).2 =
        .ok (some 7) :=
  have h := empty_isolation demoGob "app" "b"
    (namespaces_apart "app" "b" (by decide) (by decide) (by decide))
  have hr := h.1 (by decide) 4 demoTwoRedis (by intro f hf; cases hf) (by decide)
  have hb := h.2 demoTwoBadger (by unfold Badger.Sorted; decide) (by intro f hf; cases hf)
  ⟨by decide,
   hr.elim (fun s1 hs => ⟨s1, hs.1, hs.2.1 "user:1", hs.2.2.1 "k",
     (hs.2.2.2 "k").trans (by decide)⟩),
   by decide, hb.1, hb.2.1 "user:1", hb.2.2.1 "k", (hb.2.2.2 "k").trans (by decide)⟩

/-! ## Idempotence -/

/-- C12: `EmptyByMatch` run twice in a row leaves the store of the first run: on redis
for every pattern, on a reliable server with fuel for every page, and on badger for a
database in key order whose transactions succeed.  Both runs return nil, and the
second deletes nothing. -/
theorem emptyByMatch_idempotent (n p : String) :
    (∀ (fuel : Nat) (s : Redis), s.Reliable → s.data.length < fuel →
      ∃ s1 s2, RedisCache.EmptyByMatch ⟨n⟩ fuel p s = some (none, s1) ∧
        RedisCache.EmptyByMatch ⟨n⟩ fuel p s1 = some (none, s2) ∧
        s2.data = s1.data ∧ s2.now = s1.now) ∧
    (∀ s : Badger, s.Sorted → s.Reliable →
      (BadgerCache.EmptyByMatch ⟨n⟩ p s).1 = .returned none ∧
      (BadgerCache.EmptyByMatch ⟨n⟩ p (BadgerCache.EmptyByMatch ⟨n⟩ p s).2).1 =
        .returned none ∧
      (BadgerCache.EmptyByMatch ⟨n⟩ p (BadgerCache.EmptyByMatch ⟨n⟩ p s).2).2.data =
        (BadgerCache.EmptyByMatch ⟨n⟩ p s).2.data ∧
      (BadgerCache.EmptyByMatch ⟨n⟩ p (BadgerCache.EmptyByMatch ⟨n⟩ p s).2).2.now =
        (BadgerCache.EmptyByMatch ⟨n⟩ p s).2.now) := by
  constructor
  · intro fuel s hr hfuel
    obtain ⟨s1, h1, hd1, hn1, hr1⟩ := redis_EmptyByMatch_run ⟨n⟩ fuel p s hr hfuel
    have hlen : s1.data.length < fuel := by
      rw [hd1]
      exact lt_of_le_of_lt (List.length_filter_le _ _) hfuel
    obtain ⟨s2, h2, hd2, hn2, _⟩ := redis_EmptyByMatch_run ⟨n⟩ fuel p s1 hr1 hlen
    refine ⟨s1, s2, h1, h2, ?_, hn2⟩
    have hnone : s1.data.filter (fun e => Redis.liveAt s1.now e &&
        stringmatch (storageKey (RedisCache.mk n).Prefix p ++ "*") e.1) = [] := by
      rw [List.filter_eq_nil_iff]
      intro e he hcond
      rw [hd1] at he
      obtain ⟨hed, hD⟩ := List.mem_filter.mp he
      rw [hn1] at hcond
      have hin : ((s.data.filter (fun e => Redis.liveAt s.now e &&
          stringmatch (storageKey (RedisCache.mk n).Prefix p ++ "*") e.1)).map
            (·.1)).contains e.1 = true := by
        rw [List.contains_iff_exists_mem_beq]
        exact ⟨e.1, List.mem_map.mpr ⟨e, List.mem_filter.mpr ⟨hed, hcond⟩, rfl⟩, by simp⟩
      rw [hin] at hD
      simp at hD
    rw [hd2, hnone]
    simp
  · intro s hs hf
    obtain ⟨h1, hd1, hn1, hr1⟩ := badger_EmptyByMatch_run ⟨n⟩ p s hs hf
    have hs1 := badger_EmptyByMatch_sorted ⟨n⟩ p s hs
    obtain ⟨h2, hd2, hn2, _⟩ := badger_EmptyByMatch_run ⟨n⟩ p
      (BadgerCache.EmptyByMatch ⟨n⟩ p s).2 hs1 hr1
    refine ⟨h1, h2, ?_, hn2⟩
    have hu : (BadgerCache.EmptyByMatch ⟨n⟩ p s).2.unix = s.unix := by
      unfold Badger.unix
      rw [hn1]
    rw [hd2, hu, List.filter_eq_self]
    intro e he
    rw [hd1] at he
    exact (List.mem_filter.mp he).2

/-- C12, on the keyspace and the database that hold `app:user:1`, `app:user:2` and
`app:order:1`. -/
theorem emptyByMatch_idempotent_witness :
    (∃ s1 s2, RedisCache.EmptyByMatch ⟨"app"⟩ 4 "user:" demoRedis = some (none, s1) ∧
      RedisCache.EmptyByMatch ⟨"app"⟩ 4 "user:" s1 = some (none, s2) ∧
      s2.data = s1.data ∧ s2.now = s1.now) ∧
      (BadgerCache.EmptyByMatch ⟨"app"⟩ "user:"
        (BadgerCache.EmptyByMatch ⟨"app"⟩ "user:" demoBadger).2).2.data =
        (BadgerCache.EmptyByMatch ⟨"app"⟩ "user:" demoBadger).2.data :=
  have h := emptyByMatch_idempotent "app" "user:"
  ⟨h.1 4 demoRedis (by intro f hf; cases hf) (by decide),
   (h.2 demoBadger (by unfold Badger.Sorted; decide) (by intro f hf; cases hf)).2.2.1⟩

/-! ## Has on the two backends -/

/-- C13 fails as stated.  For an absent key `RedisCache.Has` returns `(false, nil)` and
`BadgerCache.Has` returns false with the not-found error of `Get`; for an entry whose
bytes do not decode `RedisCache.Has` returns true and `BadgerCache.Has` false. -/
theorem has_differs :
    (RedisCache.Has ⟨"app"⟩ "k" ⟨[], 0, [], 0, 0⟩).1 = .ok false ∧
      BadgerCache.Has demoGob ⟨"app"⟩ "k" ⟨[], 0, []⟩ = .error .notFound ∧
      (RedisCache.Has ⟨"app"⟩ "k" ⟨[("app:k", ⟨[5], none⟩)], 0, [], 0, 0⟩).1 = .ok true ∧
      BadgerCache.Has demoGob ⟨"app"⟩ "k" demoCorrupt = .error .decodeErr := by
  decide

/-- C13, amended: for a redis keyspace and a badger database that hold the same payload,
or none, under `n ++ ":" ++ k`, a payload that decodes, `RedisCache.Has` (its command
reaching the server) and `BadgerCache.Has` return the same boolean: `(true, nil)` on
both when the entry is there, false on both when it is not. -/
theorem has_agreement {V : Type} (g : Gob V) (n k : String) (sr : Redis) (sb : Badger)
    (hcmd : sr.roundTrip.1 = false)
    (hsame : (sr.lookup (n ++ ":" ++ k)).map (·.value) =
      (sb.lookup (n ++ ":" ++ k)).map (·.value))
    (hdec : ∀ it, sb.lookup (n ++ ":" ++ k) = some it → (g.dec it.value).isSome = true) :
    resultBool (RedisCache.Has ⟨n⟩ k sr).1 = resultBool (BadgerCache.Has g ⟨n⟩ k sb) ∧
      ((sb.lookup (n ++ ":" ++ k)).isSome = true →
        (RedisCache.Has ⟨n⟩ k sr).1 = .ok true ∧ BadgerCache.Has g ⟨n⟩ k sb = .ok true) ∧
      (sb.lookup (n ++ ":" ++ k) = none →
        (RedisCache.Has ⟨n⟩ k sr).1 = .ok false ∧
          resultBool (BadgerCache.Has g ⟨n⟩ k sb) = false) := by
  have hr : (RedisCache.Has ⟨n⟩ k sr).1 = .ok (sr.lookup (n ++ ":" ++ k)).isSome := by
    rw [redis_Has_fst, hcmd]
    rfl
  have hb : BadgerCache.Has g ⟨n⟩ k sb =
      match sb.lookup (n ++ ":" ++ k) with
      | none => .error .notFound
      | some it =>
        match g.dec it.value with
        | none => .error .decodeErr
        | some _ => .ok true := by
    unfold BadgerCache.Has
    rw [badger_Get_eq]
    simp only [storageKey, Badger.lookup]
    cases Badger.lookupIn sb.unix sb.data (n ++ ":" ++ k) with
    | none => rfl
    | some it => cases hd : g.dec it.value <;> simp [hd]
  rw [hr, hb]
  cases hlb : sb.lookup (n ++ ":" ++ k) with
  | none =>
    rw [hlb] at hsame
    have hlr : sr.lookup (n ++ ":" ++ k) = none := by
      cases h : sr.lookup (n ++ ":" ++ k) with
      | none => rfl
      | some it => rw [h] at hsame; simp at hsame
    simp [hlr, resultBool]
  | some it =>
    rw [hlb] at hsame
    have hlr : (sr.lookup (n ++ ":" ++ k)).isSome = true := by
      cases h : sr.lookup (n ++ ":" ++ k) with
      | none => rw [h] at hsame; simp at hsame
      | some it2 => rfl
    have hd := hdec it hlb
    cases hdv : g.dec it.value with
    | none => rw [hdv] at hd; simp at hd
    | some m => simp [hlr, resultBool, hdv]

/-- C13 amended, on a keyspace and a database that hold the same payload under
`app:k`. -/
theorem has_agreement_witness :
    (RedisCache.Has ⟨"app"⟩ "k" demoStoredRedis).1 = .ok true ∧
      BadgerCache.Has demoGob ⟨"app"⟩ "k" demoStoredBadger = .ok true :=
  (has_agreement demoGob "app" "k" demoStoredRedis demoStoredBadger
    (by decide) (by decide)
    (by
      intro it hit
      have h0 : demoStoredBadger.lookup ("app" ++ ":" ++ "k") =
          some ⟨demoEnc [("app:k", some 7)], 0⟩ := by decide
      rw [h0] at hit
      cases hit
      decide)).2.1 (by decide)

end Celeritas
